import Mathlib

/-!
Verification of the restaurant sentiment analyzer (scraper / categorizer /
Flask dashboard).  The Python sources are shallowly embedded: strings are
lists of characters, Python's `str` methods (`strip`, `replace`, `split`,
`lower`, `in`) and the regular-expression calls used by the code
(`re.sub(r'\s+', ' ', ...)`, `re.split(r'[.!?]', ...)`) are given explicit
executable definitions, and exceptions are modelled with `Except`.
-/

namespace RSA

/-- Python strings, embedded as lists of characters. -/
abbrev Str := List Char

/-- Coerce a Lean string literal into the embedding. -/
def str (s : String) : Str := s.toList

/-- The characters matched by Python's `\s` / `str.strip()` default set
(ASCII whitespace as used by CPython for `str`). -/
def isPySpace (c : Char) : Bool :=
  c = ' ' || c = '\t' || c = '\n' || c = '\r' || c = '\x0b' || c = '\x0c'

/-- Python `str.lstrip()` with the default whitespace set. -/
def pyStripLeft (s : Str) : Str := s.dropWhile isPySpace

/-- Python `str.rstrip()` with the default whitespace set. -/
def pyStripRight (s : Str) : Str := (s.reverse.dropWhile isPySpace).reverse

/-- Python `str.strip()` with the default whitespace set. -/
def pyStrip (s : Str) : Str := pyStripRight (pyStripLeft s)

/-- Worker for `collapseWs`; the flag records whether the previous character
was whitespace (in which case further whitespace is dropped). -/
def collapseWsGo : Bool → Str → Str
  | _, [] => []
  | prevWs, c :: rest =>
    if isPySpace c then
      if prevWs then collapseWsGo true rest else ' ' :: collapseWsGo true rest
    else c :: collapseWsGo false rest

/-- `re.sub(r'\s+', ' ', s)`: every maximal run of whitespace becomes one
single space. -/
def collapseWs (s : Str) : Str := collapseWsGo false s

/-- The normalization applied by `preprocess_reviews` to every text field:
`re.sub(r'\s+', ' ', s.strip())`. -/
def normalize (s : Str) : Str := collapseWs (pyStrip s)

/-- `isPre pat s` holds when `pat` is a leading-segment of `s`
(decidable version used by the embedded scanners). -/
def isPre : Str → Str → Bool
  | [], _ => true
  | _ :: _, [] => false
  | c :: p, d :: s => c = d && isPre p s

/-- Python's substring test `pat in s`. -/
def occursIn : Str → Str → Bool
  | pat, [] => pat.isEmpty
  | pat, s@(_ :: rest) => isPre pat s || occursIn pat rest

/-- Prepend a character onto the first part of a part list (helper shared by
the splitting scanners). -/
def consHead (c : Char) : List Str → List Str
  | [] => [[c]]
  | q :: qs => (c :: q) :: qs

/-- Fuelled scanner behind `splitAll`: splits at the leftmost, non-overlapping
occurrences of `pat`, exactly as Python's `s.split(pat)` does.  The fuel is
always instantiated with at least the length of the string. -/
def splitFuel (pat : Str) : Nat → Str → List Str
  | 0, s => [s]
  | _ + 1, [] => [[]]
  | n + 1, s@(c :: rest) =>
    if !pat.isEmpty && isPre pat s then
      [] :: splitFuel pat n (List.drop (pat.length - 1) rest)
    else consHead c (splitFuel pat n rest)

/-- Python `s.split(pat)` for a non-empty separator `pat`: the parts between
the leftmost, non-overlapping occurrences of `pat`. -/
def splitAll (pat s : Str) : List Str := splitFuel pat s.length s

/-- Python `sep.join(parts)`. -/
def interc (sep : Str) : List Str → Str
  | [] => []
  | [q] => q
  | q :: qs => q ++ sep ++ interc sep qs

/-- Python `s.replace(pat, rep)` for a non-empty pattern, via the CPython
identity `s.replace(a, b) == b.join(s.split(a))`: every leftmost,
non-overlapping occurrence of `pat` is replaced by `rep`. -/
def pyReplace (s pat rep : Str) : Str := interc rep (splitAll pat s)

/-- Sentence-terminal punctuation used by `re.split(r'[.!?]', s)`. -/
def isPunct (c : Char) : Bool := c = '.' || c = '!' || c = '?'

/-- `re.split(r'[.!?]', s)`: split at every single punctuation character. -/
def splitOnPunct : Str → List Str
  | [] => [[]]
  | c :: rest =>
    if isPunct c then [] :: splitOnPunct rest else consHead c (splitOnPunct rest)

/-- Worker for `pySplitWs`; `cur` is the current word, reversed. -/
def pySplitWsGo (cur : Str) : Str → List Str
  | [] => if cur.isEmpty then [] else [cur.reverse]
  | c :: rest =>
    if isPySpace c then
      if cur.isEmpty then pySplitWsGo [] rest
      else cur.reverse :: pySplitWsGo [] rest
    else pySplitWsGo (c :: cur) rest

/-- Python `s.split()` with no argument: split on whitespace runs, with no
empty parts. -/
def pySplitWs (s : Str) : List Str := pySplitWsGo [] s

/-- Numeric value of a string of decimal digits. -/
def digitsToNat (s : Str) : Nat :=
  s.foldl (fun acc c => 10 * acc + (c.toNat - '0'.toNat)) 0

/-- Python `int(s)` on a string: optional surrounding whitespace, an optional
sign, then one or more ASCII decimal digits; anything else raises
`ValueError`, modelled as `none`. -/
def pyInt (s : Str) : Option Int :=
  let t := pyStrip s
  match t with
  | '+' :: ds =>
    if !ds.isEmpty && ds.all Char.isDigit then some (digitsToNat ds) else none
  | '-' :: ds =>
    if !ds.isEmpty && ds.all Char.isDigit then some (-(digitsToNat ds : Int)) else none
  | ds =>
    if !ds.isEmpty && ds.all Char.isDigit then some (digitsToNat ds) else none

/-- Python `str.lower()` (the texts at hand are ASCII). -/
def lowerStr (s : Str) : Str := s.map Char.toLower

/-!
### Dashboard: load-time preprocessing (`app.py`, `preprocess_reviews`)
-/

/-- A categorized record as loaded from `categorized_reviews.json`: the
original review text plus the two Analysis fields.  A field that is absent
from the Analysis mapping is represented by the empty string, matching
`review['Analysis'].get(..., '')`. -/
structure RawReview where
  originalReview : Str
  foodQuality : Str
  staffService : Str
deriving DecidableEq, Repr

/-- A record after `preprocess_reviews`: the review text rewritten with
markup spans, plus the derived label. -/
structure Enriched where
  highlighted : Str
  label : Str
deriving DecidableEq, Repr

/-- The markup fragments inserted around matched sentences.  `Piece.txt`
carries a run of review text; the three tag constructors carry the literal
markup strings inserted by the f-strings in `preprocess_reviews`.  This
structured view is used to reason about highlighting; the program itself
operates on the flattened strings. -/
inductive Piece where
  | txt (t : Str)
  | tagOF
  | tagOS
  | tagCl
deriving DecidableEq, Repr

/-- The opening food markup `<span class="food">`. -/
def tagOpenFood : Str := str "<span class=\"food\">"

/-- The opening staff markup `<span class="staff">`. -/
def tagOpenStaff : Str := str "<span class=\"staff\">"

/-- The closing markup `</span>`. -/
def tagClose : Str := str "</span>"

/-- The literal string carried by a piece. -/
def Piece.flat : Piece → Str
  | .txt t => t
  | .tagOF => tagOpenFood
  | .tagOS => tagOpenStaff
  | .tagCl => tagClose

/-- Whether a piece is a text run. -/
def Piece.isTxt : Piece → Bool
  | .txt _ => true
  | _ => false

/-- One iteration of the highlighting loop in `preprocess_reviews`: strip
the fragment, and if it is non-empty and found in the accumulated text
(`if sentence and sentence in original_review`), replace its occurrences by
the fragment wrapped in the markup of kind `k`. -/
def wrapStep (k : Piece) (acc frag0 : Str) : Str :=
  let frag := pyStrip frag0
  if !frag.isEmpty && occursIn frag acc then
    pyReplace acc frag (k.flat ++ frag ++ tagClose)
  else acc

/-- One pass of the highlighting loop in `preprocess_reviews`: split the
(already normalized) Analysis field on sentence-terminal punctuation and run
`wrapStep` over the fragments. -/
def wrapField (k : Piece) (field : Str) (s : Str) : Str :=
  (splitOnPunct field).foldl (wrapStep k) s

/-- The body of `preprocess_reviews` for one record: normalize all three
text fields, highlight food sentences then staff sentences, and derive the
label from the truthiness of the two normalized Analysis fields. -/
def preprocess_review (r : RawReview) : Enriched :=
  let orig := normalize r.originalReview
  let fq := normalize r.foodQuality
  let ss := normalize r.staffService
  let h1 := wrapField Piece.tagOF fq orig
  let h2 := wrapField Piece.tagOS ss h1
  let lab :=
    if !fq.isEmpty && !ss.isEmpty then str "both"
    else if !fq.isEmpty then str "food"
    else if !ss.isEmpty then str "staff"
    else str "none"
  { highlighted := h2, label := lab }

/-- `preprocess_reviews` over the whole list. -/
def preprocess_reviews (l : List RawReview) : List Enriched :=
  l.map preprocess_review

/-- Removal of the inserted markup: delete every occurrence of the food
opening tag, then of the staff opening tag, then of the closing tag. -/
def stripMarkup (s : Str) : Str :=
  pyReplace (pyReplace (pyReplace s tagOpenFood []) tagOpenStaff []) tagClose []

/-!
### Dashboard: list view (`app.py`, `index`)
-/

/-- The filter predicate of the `index` route for a (stripped, lowercased)
non-empty query `q`: the three `if`/`elif` branches each append the record,
so membership is their disjunction. -/
def matchesQuery (q : Str) (e : Enriched) : Bool :=
  (q = str "food" && (e.label = str "food" || e.label = str "both"))
  || ((q = str "staff" || q = str "service" || q = str "services")
      && (e.label = str "staff" || e.label = str "both"))
  || occursIn q (lowerStr e.highlighted)

/-- The filtering step of `index`: the raw form query is stripped and
lowercased; an empty query leaves the list unfiltered. -/
def index_filter (rawQuery : Str) (reviews : List Enriched) : List Enriched :=
  let q := lowerStr (pyStrip rawQuery)
  if q.isEmpty then reviews else reviews.filter (matchesQuery q)

/-- Resolution of one slice endpoint, as Python does for `list[i:j]` on a
list of length `n`: negative endpoints count from the end and everything is
clamped into `[0, n]`. -/
def pySliceResolve (n : Nat) (i : Int) : Nat :=
  if i < 0 then ((n : Int) + i).toNat else min i.toNat n

/-- Python `l[i:j]`. -/
def pySlice {α : Type} (l : List α) (i j : Int) : List α :=
  let a := pySliceResolve l.length i
  let b := pySliceResolve l.length j
  (l.drop a).take (b - a)

/-- The pagination dictionary built by `index`. -/
structure Pagination (α : Type) where
  records : List α
  currentPage : Int
  totalPages : Nat
  prevPage : Option Int
  nextPage : Option Int
  pages : List Nat
deriving Repr

/-- The pagination logic of `index`: page size 10, `total_pages =
ceil(len(filtered)/10)` (embedded as exact natural ceiling division),
`filtered[(page-1)*10 : (page-1)*10+10]` with Python slice semantics, and
previous/next pages that are `None` at the boundaries. -/
def index_paginate {α : Type} (filtered : List α) (page : Int) : Pagination α :=
  let totalReviews := filtered.length
  let totalPages := (totalReviews + 9) / 10
  let start := (page - 1) * 10
  let stop := start + 10
  { records := pySlice filtered start stop
    currentPage := page
    totalPages := totalPages
    prevPage := if page > 1 then some (page - 1) else none
    nextPage := if page < (totalPages : Int) then some (page + 1) else none
    pages := List.range' 1 totalPages }

/-- `int(request.args.get('page', 1))`: a missing query parameter defaults
to the integer 1; a present parameter is converted with `int`, which raises
(`Except.error`) on anything that is not an integer literal. -/
def index_page_param (pageParam : Option Str) : Except Unit Int :=
  match pageParam with
  | none => .ok 1
  | some s =>
    match pyInt s with
    | some n => .ok n
    | none => .error ()

/-!
### Dashboard: date parsing and competitor analysis (`app.py`)
-/

/-- The value produced by `parse_date`: either a calendar date from
`datetime.strptime(_, "%B %d, %Y")`, or `datetime.now() - timedelta(days=k)`
represented symbolically by the day offset `k`. -/
inductive PDate where
  | ymd (year month day : Nat)
  | daysBefore (k : Int)
deriving DecidableEq, Repr

/-- The English month names recognized by `strptime`'s `%B`. -/
def monthNames : List (Str × Nat) :=
  [(str "January", 1), (str "February", 2), (str "March", 3),
   (str "April", 4), (str "May", 5), (str "June", 6),
   (str "July", 7), (str "August", 8), (str "September", 9),
   (str "October", 10), (str "November", 11), (str "December", 12)]

/-- Match a full month name at the front of `s`, returning its number and
the rest of the string. -/
def parseMonth (s : Str) : Option (Nat × Str) :=
  monthNames.foldr
    (fun nm acc => if isPre nm.1 s then some (nm.2, s.drop nm.1.length) else acc)
    none

/-- `datetime.strptime(s, "%B %d, %Y")`, modelled from the documented
format: a full month name, a space, a 1-2 digit day in range, a comma and a
space, then a 4-digit year consuming the whole string.  Failure (`none`)
embeds the `ValueError` the library raises. -/
def strpBdY (s : Str) : Option PDate :=
  match parseMonth s with
  | none => none
  | some (m, r1) =>
    match r1 with
    | ' ' :: r2 =>
      let ds := r2.takeWhile Char.isDigit
      let r3 := r2.dropWhile Char.isDigit
      if ds.isEmpty || decide (2 < ds.length)
         || decide (digitsToNat ds = 0) || decide (31 < digitsToNat ds) then none
      else
        match r3 with
        | ',' :: ' ' :: r4 =>
          let ys := r4.takeWhile Char.isDigit
          let r5 := r4.dropWhile Char.isDigit
          if decide (ys.length = 4) && r5.isEmpty then
            some (.ymd (digitsToNat ys) m (digitsToNat ds))
          else none
        | _ => none
    | _ => none

/-- `parse_date` from `app.py`: strings containing `"Dined on"` go through
`strptime` after deleting every `"Dined on "`; otherwise strings containing
`"days ago"` take `int(s.split()[1])` days before now; all other strings
yield `None`.  `Except.error` embeds an uncaught exception
(`ValueError` from `strptime`/`int`, or `IndexError` from `split()[1]`). -/
def parse_date (s : Str) : Except Unit (Option PDate) :=
  if occursIn (str "Dined on") s then
    match strpBdY (pyStrip (pyReplace s (str "Dined on ") [])) with
    | some d => .ok (some d)
    | none => .error ()
  else if occursIn (str "days ago") s then
    match (pySplitWs s).get? 1 with
    | none => .error ()
    | some w =>
      match pyInt w with
      | some k => .ok (some (.daysBefore k))
      | none => .error ()
  else .ok none

/-- A calendar month, as produced by pandas `dt.to_period('M')`. -/
abbrev Month := Nat × Nat

/-- The mean rating of the rows of a given month, as computed by
`groupby(df['Date'].dt.to_period('M'))['Rating'].mean()`: rows whose date is
null (`NaT`) belong to no group, and a month with no rows has no mean.
Modelled from the documented pandas `groupby`/`mean` semantics. -/
def monthlyMean (rows : List (Option Month × Rat)) (m : Month) : Option Rat :=
  let sel := (rows.filter (fun r => r.1 = some m)).map (fun r => r.2)
  if sel.isEmpty then none else some (sel.sum / (sel.length : Rat))

/-- The length-alignment step of `competitor_analysis`, returning the
`Rating` column of `competitor_df_aligned`: with `max_len` the maximum of
the two row counts, the competitor ratings are padded with `None` up to
`max_len` when shorter and cut to `max_len` otherwise, and the column is
then built from `competitor_ratings[:len(competitor_df)]`. -/
def align_competitor (mainLen : Nat) (ratings : List Int) : List (Option Int) :=
  let maxLen := max mainLen ratings.length
  let padded :=
    if ratings.length < maxLen then
      ratings.map some ++ List.replicate (maxLen - ratings.length) none
    else (ratings.map some).take maxLen
  padded.take ratings.length

/-!
### Categorizer (`categorizer.py`)
-/

/-- The Analysis value the categorizer falls back to on any failure. -/
def defaultAnalysis : List (Str × Str) :=
  [(str "Food Quality", []), (str "Staff/Service", [])]

/-- The outcome of the API call inside the `try` block of
`categorize_single_review`: the call (or reading `message.content[0].text`)
raised; or the returned message was falsy; or a textual response came back. -/
inductive ApiOutcome where
  | failure
  | falsyMessage
  | response (text : Str)
deriving DecidableEq, Repr

/-- `categorize_single_review`: on a response, the stripped text is handed to
`json.loads` (the library parser, abstracted as `jsonLoads`, `none` embedding
a raised `JSONDecodeError`); every raised exception is caught and yields the
default Analysis, as does a falsy message. -/
def categorize_single_review (jsonLoads : Str → Option (List (Str × Str)))
    (o : ApiOutcome) : List (Str × Str) :=
  match o with
  | .failure => defaultAnalysis
  | .falsyMessage => defaultAnalysis
  | .response t =>
    match jsonLoads (pyStrip t) with
    | some a => a
    | none => defaultAnalysis

/-- One row of `restaurant_reviews_content.csv`. -/
structure CsvRow where
  reviewerName : Str
  rating : Str
  date : Str
  reviewText : Str
deriving DecidableEq, Repr

/-- One record written to `categorized_reviews.json`. -/
structure Categorized where
  reviewerName : Str
  rating : Str
  date : Str
  originalReview : Str
  analysis : List (Str × Str)
deriving DecidableEq, Repr

/-- The loop of `categorize_reviews_from_csv`, with `i` the running row
index (`outcomes i` is the API outcome for row `i`). -/
def categorizeGo (jsonLoads : Str → Option (List (Str × Str)))
    (outcomes : Nat → ApiOutcome) : Nat → List CsvRow → List Categorized
  | _, [] => []
  | i, row :: rest =>
    { reviewerName := row.reviewerName
      rating := row.rating
      date := row.date
      originalReview := row.reviewText
      analysis := categorize_single_review jsonLoads (outcomes i) }
    :: categorizeGo jsonLoads outcomes (i + 1) rest

/-- `categorize_reviews_from_csv`: one categorized record per CSV row, in
order, each row's Analysis produced by `categorize_single_review`. -/
def categorize_reviews_from_csv (jsonLoads : Str → Option (List (Str × Str)))
    (outcomes : Nat → ApiOutcome) (rows : List CsvRow) : List Categorized :=
  categorizeGo jsonLoads outcomes 0 rows

/-!
### Proof-support definitions

The highlighted string is analysed through a structured view: a list of
pieces, each either a run of review text or one inserted markup tag.
-/

/-- Flatten a piece list back into the string the program manipulates. -/
def flatten : List Piece → Str
  | [] => []
  | p :: r => p.flat ++ flatten r

/-- The concatenation of the text runs of a piece list (the non-markup
content). -/
def texts : List Piece → Str
  | [] => []
  | .txt t :: r => t ++ texts r
  | _ :: r => texts r

/-- A string without the markup delimiter characters. -/
def noTagCharsB (s : Str) : Bool := s.all fun c => !(c = '<' || c = '>')

/-- Every text run is free of markup delimiter characters. -/
def cleanB (r : List Piece) : Bool :=
  r.all fun p =>
    match p with
    | .txt t => noTagCharsB t
    | _ => true

/-- No two adjacent text runs (text runs are always separated by tags). -/
def noAdjB : List Piece → Bool
  | p :: q :: r => (!(p.isTxt && q.isTxt)) && noAdjB (q :: r)
  | _ => true

/-- A fragment is safe for highlighting when it is non-empty, contains no
markup delimiter character, and does not occur inside any of the three
inserted markup strings. -/
def safeFragB (f : Str) : Bool :=
  !f.isEmpty && noTagCharsB f
  && !occursIn f tagOpenFood && !occursIn f tagOpenStaff && !occursIn f tagClose

/-- Every non-empty stripped fragment of an Analysis field is safe. -/
def safeFieldB (field : Str) : Bool :=
  (splitOnPunct field).all fun g => (pyStrip g).isEmpty || safeFragB (pyStrip g)

/-- Modelled from the spec: the fixed label truth table of section 4.3,
keyed by which Analysis fields are present. -/
def labelTableSpec (foodPresent staffPresent : Bool) : Str :=
  match foodPresent, staffPresent with
  | true, true => str "both"
  | true, false => str "food"
  | false, true => str "staff"
  | false, false => str "none"

/-- No occurrence of `pat` in `x ++ y` straddles the boundary: there is no
splitting of `pat` into a non-empty suffix of `x` followed by a non-empty
leading-segment of `y`. -/
def NoStraddle (x y pat : Str) : Prop :=
  ∀ p1 p2, pat = p1 ++ p2 → p1 ≠ [] → p2 ≠ [] → p1 <:+ x → p2 <+: y → False

/-- The structured counterpart of replacing the occurrences of `f` inside
one text run whose split at `f` is `parts`: each inner boundary becomes
`k`-tag, the matched fragment, closing tag. -/
def wrapParts (k : Piece) (f : Str) : List Str → List Piece
  | [] => []
  | [q] => [Piece.txt q]
  | q :: qs => Piece.txt q :: k :: Piece.txt f :: Piece.tagCl :: wrapParts k f qs

/-- The structured counterpart of one replacement pass on one piece: text
runs are split and wrapped, tags are untouched. -/
def wrapPiece (k : Piece) (f : Str) : Piece → List Piece
  | .txt t => wrapParts k f (splitAll f t)
  | p => [p]

/-- The structured counterpart of one replacement pass on a piece list. -/
def wrapRep (k : Piece) (f : Str) (r : List Piece) : List Piece :=
  (r.map (wrapPiece k f)).flatten

/-- Join two part lists across a string boundary that no occurrence
straddles: the last part before the boundary and the first part after it
fuse into one part. -/
def splitGlue : List Str → List Str → List Str
  | [], ms => ms
  | [a], ms =>
    match ms with
    | [] => [a]
    | b :: bs => (a ++ b) :: bs
  | a :: as, ms => a :: splitGlue as ms

/-!
### Concrete records used by counterexamples and witnesses
-/

/-- A record whose Staff/Service fragment `"food"` also occurs inside the
markup inserted by the food pass. -/
def rxC1 : RawReview := ⟨str "pan b. food", str "pan b", str "food"⟩

/-- A well-behaved record: fragments match plain sentences only. -/
def rwC1 : RawReview :=
  ⟨str "Good pizza. Rude staff.", str "Good pizza.", str "Rude staff."⟩

/-- A record whose food fragment occurs twice in the review text. -/
def rxC8 : RawReview :=
  ⟨str "good pizza! bad day. good pizza", str "good pizza", []⟩

/-- A record with an empty Analysis whose text mentions food anyway. -/
def rxC3 : RawReview := ⟨str "The food was cold", [], []⟩

/-!
## Lemmas about the string primitives
-/

theorem isPre_iff (p s : Str) : isPre p s = true ↔ p <+: s := by
  induction p generalizing s with
  | nil => simp [isPre]
  | cons c p ih =>
    cases s with
    | nil => simp [isPre]
    | cons d s =>
      simp only [isPre, Bool.and_eq_true, decide_eq_true_eq, ih,
        List.cons_prefix_cons]

theorem occursIn_iff (p s : Str) : occursIn p s = true ↔ p <:+: s := by
  induction s with
  | nil =>
    simp only [occursIn, List.isEmpty_iff, List.infix_nil]
  | cons c s ih =>
    simp only [occursIn, Bool.or_eq_true, isPre_iff, ih,
      List.infix_cons_iff]

theorem occursIn_subset {p s : Str} (h : occursIn p s = true) :
    ∀ c ∈ p, c ∈ s := by
  rw [occursIn_iff] at h
  exact fun c hc => h.mem hc

theorem isPre_eq_append {p s : Str} (h : isPre p s = true) :
    s = p ++ s.drop p.length := by
  rw [isPre_iff] at h
  obtain ⟨t, rfl⟩ := h
  simp

theorem splitFuel_fuel (pat : Str) :
    ∀ n m s, s.length ≤ n → s.length ≤ m →
      splitFuel pat n s = splitFuel pat m s := by
  intro n
  induction n with
  | zero =>
    intro m s hn _
    have hs : s = [] := List.eq_nil_of_length_eq_zero (Nat.le_zero.mp hn)
    subst hs
    cases m <;> rfl
  | succ n ih =>
    intro m s hn hm
    cases s with
    | nil => cases m <;> rfl
    | cons c rest =>
      cases m with
      | zero => exact absurd hm (by simp)
      | succ m =>
        simp only [splitFuel]
        by_cases h : (!pat.isEmpty && isPre pat (c :: rest)) = true
        · rw [h]
          simp only [if_true]
          have hlen : (List.drop (pat.length - 1) rest).length ≤ n := by
            have := List.length_drop (pat.length - 1) rest
            simp only [List.length_cons] at hn
            omega
          have hlen2 : (List.drop (pat.length - 1) rest).length ≤ m := by
            have := List.length_drop (pat.length - 1) rest
            simp only [List.length_cons] at hm
            omega
          rw [ih m _ hlen hlen2]
        · rw [Bool.not_eq_true] at h
          rw [h]
          simp only [Bool.false_eq_true, if_false]
          have hlen : rest.length ≤ n := by
            simp only [List.length_cons] at hn; omega
          have hlen2 : rest.length ≤ m := by
            simp only [List.length_cons] at hm; omega
          rw [ih m _ hlen hlen2]

theorem splitAll_nil (pat : Str) : splitAll pat [] = [[]] := rfl

theorem splitAll_cons_pos {pat : Str} {c : Char} {rest : Str}
    (h : (!pat.isEmpty && isPre pat (c :: rest)) = true) :
    splitAll pat (c :: rest) =
      [] :: splitAll pat (List.drop (pat.length - 1) rest) := by
  unfold splitAll
  simp only [List.length_cons, splitFuel, h, if_true]
  congr 1
  refine splitFuel_fuel pat rest.length _ _ ?_ le_rfl
  have := List.length_drop (pat.length - 1) rest
  omega

theorem splitAll_cons_neg {pat : Str} {c : Char} {rest : Str}
    (h : (!pat.isEmpty && isPre pat (c :: rest)) = false) :
    splitAll pat (c :: rest) = consHead c (splitAll pat rest) := by
  unfold splitAll
  simp only [List.length_cons, splitFuel, h, Bool.false_eq_true, if_false]

theorem splitAll_ne_nil (pat s : Str) : splitAll pat s ≠ [] := by
  cases s with
  | nil => simp [splitAll_nil]
  | cons c rest =>
    by_cases h : (!pat.isEmpty && isPre pat (c :: rest)) = true
    · rw [splitAll_cons_pos h]; simp
    · rw [splitAll_cons_neg (Bool.not_eq_true _ ▸ h)]
      cases splitAll pat rest <;> simp [consHead]

theorem interc_cons2 (sep q : Str) {qs : List Str} (h : qs ≠ []) :
    interc sep (q :: qs) = q ++ sep ++ interc sep qs := by
  cases qs with
  | nil => exact absurd rfl h
  | cons q' qs' => rfl

theorem interc_consHead (sep : Str) (c : Char) {X : List Str} (h : X ≠ []) :
    interc sep (consHead c X) = c :: interc sep X := by
  cases X with
  | nil => exact absurd rfl h
  | cons q qs =>
    cases qs with
    | nil => rfl
    | cons q' qs' => rfl

theorem interc_splitAll (pat : Str) : ∀ s, interc pat (splitAll pat s) = s := by
  have main : ∀ n s, s.length ≤ n → interc pat (splitAll pat s) = s := by
    intro n
    induction n with
    | zero =>
      intro s hn
      have hs : s = [] := List.eq_nil_of_length_eq_zero (Nat.le_zero.mp hn)
      subst hs; rfl
    | succ n ih =>
      intro s hn
      cases s with
      | nil => rfl
      | cons c rest =>
        by_cases h : (!pat.isEmpty && isPre pat (c :: rest)) = true
        · rw [splitAll_cons_pos h]
          obtain ⟨h1, h2⟩ := Bool.and_eq_true_iff.mp h
          have hp : pat ≠ [] := by simpa using h1
          have hdrop : List.drop (pat.length - 1) rest =
              List.drop pat.length (c :: rest) := by
            cases pat with
            | nil => exact absurd rfl hp
            | cons a as => simp
          rw [interc_cons2 pat [] (splitAll_ne_nil _ _), hdrop]
          have hple : 1 ≤ pat.length := by
            cases pat with
            | nil => exact absurd rfl hp
            | cons a as => simp
          have hlen : (List.drop pat.length (c :: rest)).length ≤ n := by
            have := List.length_drop pat.length (c :: rest)
            simp only [List.length_cons] at hn this ⊢
            omega
          rw [ih _ hlen]
          simpa using (isPre_eq_append h2).symm
        · rw [splitAll_cons_neg (Bool.not_eq_true _ ▸ h)]
          rw [interc_consHead pat c (splitAll_ne_nil _ _)]
          have hlen : rest.length ≤ n := by
            simp only [List.length_cons] at hn; omega
          rw [ih _ hlen]
  exact fun s => main s.length s le_rfl

theorem splitAll_sub (pat : Str) : ∀ s, ∀ q ∈ splitAll pat s, ∀ c ∈ q, c ∈ s := by
  have main : ∀ n s, s.length ≤ n → ∀ q ∈ splitAll pat s, ∀ c ∈ q, c ∈ s := by
    intro n
    induction n with
    | zero =>
      intro s hn
      have hs : s = [] := List.eq_nil_of_length_eq_zero (Nat.le_zero.mp hn)
      subst hs
      intro q hq c hc
      rw [splitAll_nil] at hq
      simp only [List.mem_singleton] at hq
      subst hq
      exact absurd hc (by simp)
    | succ n ih =>
      intro s hn
      cases s with
      | nil =>
        intro q hq c hc
        rw [splitAll_nil] at hq
        simp only [List.mem_singleton] at hq
        subst hq
        exact absurd hc (by simp)
      | cons a rest =>
        intro q hq c hc
        by_cases h : (!pat.isEmpty && isPre pat (a :: rest)) = true
        · rw [splitAll_cons_pos h] at hq
          rcases List.mem_cons.mp hq with hq | hq
          · subst hq; exact absurd hc (by simp)
          · have hlen : (List.drop (pat.length - 1) rest).length ≤ n := by
              have := List.length_drop (pat.length - 1) rest
              simp only [List.length_cons] at hn
              omega
            have := ih _ hlen q hq c hc
            exact List.mem_cons_of_mem a (List.mem_of_mem_drop this)
        · rw [splitAll_cons_neg (Bool.not_eq_true _ ▸ h)] at hq
          have hlen : rest.length ≤ n := by
            simp only [List.length_cons] at hn; omega
          rcases hX : splitAll pat rest with _ | ⟨q0, qs⟩
          · exact absurd hX (splitAll_ne_nil _ _)
          · rw [hX] at hq
            simp only [consHead] at hq
            rcases List.mem_cons.mp hq with hq | hq
            · subst hq
              rcases List.mem_cons.mp hc with hc | hc
              · exact hc ▸ List.mem_cons_self a rest
              · have := ih _ hlen q0 (hX ▸ List.mem_cons_self q0 qs) c hc
                exact List.mem_cons_of_mem a this
            · have := ih _ hlen q (hX ▸ List.mem_cons_of_mem q0 hq) c hc
              exact List.mem_cons_of_mem a this
  exact fun s => main s.length s le_rfl

theorem splitAll_no_occ {pat : Str} : ∀ {s : Str},
    occursIn pat s = false → splitAll pat s = [s] := by
  intro s
  induction s with
  | nil => intro _; exact splitAll_nil pat
  | cons c rest ih =>
    intro h
    simp only [occursIn, Bool.or_eq_false_iff] at h
    have hcond : (!pat.isEmpty && isPre pat (c :: rest)) = false := by
      rw [h.1, Bool.and_false]
    rw [splitAll_cons_neg hcond, ih h.2]
    rfl

theorem pyReplace_no_occ {pat : Str} {s : Str} (rep : Str)
    (h : occursIn pat s = false) : pyReplace s pat rep = s := by
  unfold pyReplace
  rw [splitAll_no_occ h]
  rfl

/-!
## Distribution of splitting over a boundary no occurrence straddles
-/

theorem splitGlue_ne_nil {L : List Str} (h : L ≠ []) (M : List Str) :
    splitGlue L M ≠ [] := by
  cases L with
  | nil => exact absurd rfl h
  | cons a as =>
    cases as with
    | nil => cases M <;> simp [splitGlue]
    | cons a' as' => simp [splitGlue]

theorem splitGlue_cons2 {a : Str} {as : List Str} (h : as ≠ []) (M : List Str) :
    splitGlue (a :: as) M = a :: splitGlue as M := by
  cases as with
  | nil => exact absurd rfl h
  | cons a' as' => rfl

theorem splitGlue_nil_left {M : List Str} (h : M ≠ []) :
    splitGlue [[]] M = M := by
  cases M with
  | nil => exact absurd rfl h
  | cons b bs => simp [splitGlue]

theorem interc_splitGlue (sep : Str) : ∀ {L M : List Str}, L ≠ [] →
    interc sep (splitGlue L M) = interc sep L ++ interc sep M := by
  intro L
  induction L with
  | nil => intro M h; exact absurd rfl h
  | cons a as ih =>
    intro M _
    cases as with
    | nil =>
      cases M with
      | nil => simp [splitGlue, interc]
      | cons b bs =>
        simp only [splitGlue, interc]
        cases bs with
        | nil => simp [interc]
        | cons b' bs' =>
          rw [interc_cons2 sep (a ++ b) (by simp), interc_cons2 sep b (by simp)]
          simp
    | cons a' as' =>
      rw [splitGlue_cons2 (by simp) M,
        interc_cons2 sep a (splitGlue_ne_nil (by simp) M),
        interc_cons2 sep a (by simp), ih (M := M) (by simp)]
      simp

theorem consHead_splitGlue (c : Char) : ∀ {L M : List Str}, L ≠ [] →
    splitGlue (consHead c L) M = consHead c (splitGlue L M) := by
  intro L M hL
  cases L with
  | nil => exact absurd rfl hL
  | cons q qs =>
    cases qs with
    | nil =>
      cases M with
      | nil => rfl
      | cons b bs => rfl
    | cons q' qs' => rfl

theorem splitAll_append {pat : Str} (hp : pat ≠ []) :
    ∀ (x : Str) {y : Str}, NoStraddle x y pat →
      splitAll pat (x ++ y) = splitGlue (splitAll pat x) (splitAll pat y) := by
  have hpe : pat.isEmpty = false := by
    cases pat with
    | nil => exact absurd rfl hp
    | cons a as => rfl
  have main : ∀ n (x : Str), x.length ≤ n → ∀ {y : Str}, NoStraddle x y pat →
      splitAll pat (x ++ y) = splitGlue (splitAll pat x) (splitAll pat y) := by
    intro n
    induction n with
    | zero =>
      intro x hx y _
      have hxe : x = [] := List.eq_nil_of_length_eq_zero (Nat.le_zero.mp hx)
      subst hxe
      rw [List.nil_append, splitAll_nil,
        splitGlue_nil_left (splitAll_ne_nil pat y)]
    | succ n ih =>
      intro x hx y hns
      cases x with
      | nil =>
        rw [List.nil_append, splitAll_nil,
          splitGlue_nil_left (splitAll_ne_nil pat y)]
      | cons c x' =>
        have happ : (c :: x') ++ y = c :: (x' ++ y) := rfl
        by_cases hm : isPre pat (c :: (x' ++ y)) = true
        · by_cases hlen : pat.length ≤ (c :: x').length
          · -- the match lies inside `c :: x'`
            have hpx : isPre pat (c :: x') = true := by
              rw [isPre_iff]
              exact List.prefix_of_prefix_length_le (isPre_iff _ _ |>.mp hm)
                (List.prefix_append (c :: x') y) hlen
            rw [happ, splitAll_cons_pos (by rw [hpe]; simpa using hm),
              splitAll_cons_pos (by rw [hpe]; simpa using hpx)]
            have hd : List.drop (pat.length - 1) (x' ++ y) =
                List.drop (pat.length - 1) x' ++ y := by
              refine List.drop_append_of_le_length ?_
              simp only [List.length_cons] at hlen
              cases pat with
              | nil => exact absurd rfl hp
              | cons a as =>
                simp only [List.length_cons] at hlen ⊢
                omega
            rw [hd]
            have hrec : splitAll pat (List.drop (pat.length - 1) x' ++ y) =
                splitGlue (splitAll pat (List.drop (pat.length - 1) x'))
                  (splitAll pat y) := by
              refine ih _ ?_ ?_
              · have := List.length_drop (pat.length - 1) x'
                simp only [List.length_cons] at hx
                omega
              · intro p1 p2 hsplit h1 h2 hsuf hpre
                exact hns p1 p2 hsplit h1 h2
                  (hsuf.trans ((List.drop_suffix _ _).trans (List.suffix_cons c x')))
                  hpre
            rw [hrec,
              splitGlue_cons2 (splitAll_ne_nil pat _) (splitAll pat y)]
          · -- the match would straddle the boundary: contradiction
            exfalso
            have hpre : pat <+: (c :: x') ++ y := by
              rw [← isPre_iff]; simpa [happ] using hm
            have hxp : (c :: x') <+: pat := by
              refine List.prefix_of_prefix_length_le
                (List.prefix_append (c :: x') y) hpre ?_
              omega
            obtain ⟨d, hd⟩ := hxp
            have hdne : d ≠ [] := by
              intro hde
              subst hde
              rw [List.append_nil] at hd
              subst hd
              exact hlen le_rfl
            have hdy : d <+: y := by
              have : (c :: x') ++ d <+: (c :: x') ++ y := hd.symm ▸ hpre
              exact (List.prefix_append_right_inj (c :: x')).mp this
            exact hns (c :: x') d hd.symm (by simp) hdne List.suffix_rfl hdy
        · -- no match at this position
          have hmx : isPre pat (c :: x') = false := by
            by_contra hcon
            rw [Bool.not_eq_false, isPre_iff] at hcon
            rw [Bool.not_eq_true, ← Bool.not_eq_true, isPre_iff] at hm
            exact hm (hcon.trans (List.prefix_append (c :: x') y))
          rw [Bool.not_eq_true] at hm
          rw [happ, splitAll_cons_neg (by rw [hm, Bool.and_false]),
            splitAll_cons_neg (by rw [hmx, Bool.and_false])]
          have hrec : splitAll pat (x' ++ y) =
              splitGlue (splitAll pat x') (splitAll pat y) := by
            refine ih _ ?_ ?_
            · simp only [List.length_cons] at hx; omega
            · intro p1 p2 hsplit h1 h2 hsuf hpre
              exact hns p1 p2 hsplit h1 h2 (hsuf.trans (List.suffix_cons c x')) hpre
          rw [hrec, consHead_splitGlue c (splitAll_ne_nil pat x')]
  exact fun x => main x.length x le_rfl

theorem pyReplace_append {pat : Str} (rep : Str) (hp : pat ≠ []) {x y : Str}
    (h : NoStraddle x y pat) :
    pyReplace (x ++ y) pat rep = pyReplace x pat rep ++ pyReplace y pat rep := by
  unfold pyReplace
  rw [splitAll_append hp x h, interc_splitGlue rep (splitAll_ne_nil pat x)]

/-!
## Lemmas about the structured view of highlighted strings
-/

theorem flatten_append : ∀ (a b : List Piece),
    flatten (a ++ b) = flatten a ++ flatten b := by
  intro a b
  induction a with
  | nil => rfl
  | cons p a ih => simp [flatten, ih]

theorem texts_append : ∀ (a b : List Piece),
    texts (a ++ b) = texts a ++ texts b := by
  intro a b
  induction a with
  | nil => rfl
  | cons p a ih => cases p <;> simp [texts, ih]

theorem tag_flat_ne_nil {p : Piece} (h : p.isTxt = false) : p.flat ≠ [] := by
  cases p with
  | txt t => exact absurd h (by simp [Piece.isTxt])
  | tagOF => decide
  | tagOS => decide
  | tagCl => decide

theorem tag_flat_head {p : Piece} (h : p.isTxt = false) :
    p.flat.head? = some '<' := by
  cases p with
  | txt t => exact absurd h (by simp [Piece.isTxt])
  | tagOF => decide
  | tagOS => decide
  | tagCl => decide

theorem tag_flat_last {p : Piece} (h : p.isTxt = false) :
    p.flat.getLast? = some '>' := by
  cases p with
  | txt t => exact absurd h (by simp [Piece.isTxt])
  | tagOF => decide
  | tagOS => decide
  | tagCl => decide

theorem noTagChars_lt {s : Str} (h : noTagCharsB s = true) : '<' ∉ s := by
  intro hc
  have := List.all_eq_true.mp h '<' hc
  simp at this

theorem noTagChars_gt {s : Str} (h : noTagCharsB s = true) : '>' ∉ s := by
  intro hc
  have := List.all_eq_true.mp h '>' hc
  simp at this

theorem mem_head_of_pre {p2 s : Str} (h : p2 <+: s) (hne : p2 ≠ []) {c : Char}
    (hc : s.head? = some c) : c ∈ p2 := by
  obtain ⟨t, rfl⟩ := h
  rw [List.head?_append_of_ne_nil p2 hne] at hc
  cases p2 with
  | nil => exact absurd rfl hne
  | cons a p2' =>
    simp only [List.head?_cons, Option.some.injEq] at hc
    exact hc ▸ List.mem_cons_self a p2'

theorem mem_last_of_suf {p1 s : Str} (h : p1 <:+ s) (hne : p1 ≠ []) {c : Char}
    (hc : s.getLast? = some c) : c ∈ p1 := by
  obtain ⟨t, rfl⟩ := h
  rw [List.getLast?_append_of_ne_nil t hne] at hc
  exact List.mem_of_mem_getLast? (by rw [hc]; rfl)

theorem pre_eq_of_mem_not_dropLast {s p : Str} {c : Char} (h : p <+: s)
    (hc : c ∈ p) (hd : c ∉ s.dropLast) : p = s := by
  by_cases hlen : p.length < s.length
  · exfalso
    apply hd
    have hpd : p <+: s.dropLast := by
      rw [List.prefix_iff_eq_take.mp h, List.dropLast_eq_take]
      have : s.take p.length = (s.take (s.length - 1)).take p.length := by
        rw [List.take_take]
        congr 1
        omega
      rw [this]
      exact List.take_prefix _ _
    exact hpd.mem hc
  · exact h.eq_of_length (by have := h.length_le; omega)

/-- The text runs of a piece list are free of the delimiter characters. -/
theorem cleanB_txt_mem {r : List Piece} (h : cleanB r = true) {t : Str}
    (ht : Piece.txt t ∈ r) : noTagCharsB t = true := by
  have := List.all_eq_true.mp h _ ht
  simpa using this

theorem cleanB_cons {p : Piece} {r : List Piece}
    (h : cleanB (p :: r) = true) : cleanB r = true := by
  unfold cleanB at h ⊢
  simp only [List.all_cons, Bool.and_eq_true] at h
  exact h.2

theorem noAdjB_cons {p : Piece} {r : List Piece}
    (h : noAdjB (p :: r) = true) : noAdjB r = true := by
  cases r with
  | nil => rfl
  | cons q r' =>
    unfold noAdjB at h
    exact (Bool.and_eq_true_iff.mp h).2

theorem noAdjB_cons_head {p : Piece} {r : List Piece}
    (h : noAdjB (p :: r) = true) :
    ∀ q, r.head? = some q → (p.isTxt && q.isTxt) = false := by
  intro q hq
  cases r with
  | nil => simp at hq
  | cons q' r' =>
    simp only [List.head?_cons, Option.some.injEq] at hq
    subst hq
    unfold noAdjB at h
    have := (Bool.and_eq_true_iff.mp h).1
    rwa [Bool.not_eq_eq_eq_not, Bool.not_true] at this

theorem noAdjB_cons_of {p : Piece} {r : List Piece} (h : noAdjB r = true)
    (hh : ∀ q, r.head? = some q → (p.isTxt && q.isTxt) = false) :
    noAdjB (p :: r) = true := by
  cases r with
  | nil => rfl
  | cons q r' =>
    unfold noAdjB
    rw [h, hh q rfl]
    rfl

theorem noAdjB_append {xs : List Piece} : ∀ {ys : List Piece},
    noAdjB xs = true → noAdjB ys = true →
    (∀ p q, xs.getLast? = some p → ys.head? = some q →
      (p.isTxt && q.isTxt) = false) →
    noAdjB (xs ++ ys) = true := by
  induction xs with
  | nil => intro ys _ hy _; exact hy
  | cons x xs ih =>
    intro ys hx hy hb
    cases xs with
    | nil =>
      refine noAdjB_cons_of hy ?_
      intro q hq
      exact hb x q rfl hq
    | cons x' xs' =>
      have hrec : noAdjB ((x' :: xs') ++ ys) = true := by
        refine ih (noAdjB_cons hx) hy ?_
        intro p q hp hq
        refine hb p q ?_ hq
        rw [List.getLast?_cons_cons]
        exact hp
      show noAdjB (x :: ((x' :: xs') ++ ys)) = true
      refine noAdjB_cons_of hrec ?_
      intro q hq
      have hq' : q = x' := by
        rw [List.cons_append, List.head?_cons] at hq
        exact (Option.some.inj hq).symm
      rw [hq']
      exact noAdjB_cons_head hx x' rfl

theorem wrapParts_ne_nil {k : Piece} {f : Str} {parts : List Str}
    (h : parts ≠ []) : wrapParts k f parts ≠ [] := by
  cases parts with
  | nil => exact absurd rfl h
  | cons q qs => cases qs <;> simp [wrapParts]

theorem wrapParts_head {k : Piece} {f : Str} {parts : List Str} {p : Piece}
    (h : (wrapParts k f parts).head? = some p) : p.isTxt = true := by
  cases parts with
  | nil => simp [wrapParts] at h
  | cons q qs =>
    cases qs with
    | nil =>
      simp only [wrapParts, List.head?_cons, Option.some.injEq] at h
      subst h; rfl
    | cons q' qs' =>
      simp only [wrapParts, List.head?_cons, Option.some.injEq] at h
      subst h; rfl

theorem wrapParts_last {k : Piece} {f : Str} : ∀ {parts : List Str} {p : Piece},
    (wrapParts k f parts).getLast? = some p → p.isTxt = true := by
  intro parts
  induction parts with
  | nil => intro p h; simp [wrapParts] at h
  | cons q qs ih =>
    intro p h
    cases qs with
    | nil =>
      simp only [wrapParts, List.getLast?_singleton, Option.some.injEq] at h
      subst h; rfl
    | cons q' qs' =>
      refine ih (p := p) ?_
      have hW : wrapParts k f (q :: q' :: qs') =
          Piece.txt q :: k :: Piece.txt f :: Piece.tagCl ::
            wrapParts k f (q' :: qs') := rfl
      rw [hW, List.getLast?_cons_cons, List.getLast?_cons_cons,
        List.getLast?_cons_cons,
        show Piece.tagCl :: wrapParts k f (q' :: qs')
          = [Piece.tagCl] ++ wrapParts k f (q' :: qs') from rfl,
        List.getLast?_append_of_ne_nil _ (wrapParts_ne_nil (by simp))] at h
      exact h

theorem wrapParts_noAdj {k : Piece} (hk : k.isTxt = false) (f : Str) :
    ∀ (parts : List Str), noAdjB (wrapParts k f parts) = true := by
  intro parts
  induction parts with
  | nil => rfl
  | cons q qs ih =>
    cases qs with
    | nil => rfl
    | cons q' qs' =>
      show noAdjB (Piece.txt q :: k :: Piece.txt f :: Piece.tagCl ::
        wrapParts k f (q' :: qs')) = true
      refine noAdjB_cons_of ?_ ?_
      · refine noAdjB_cons_of ?_ ?_
        · refine noAdjB_cons_of ?_ ?_
          · refine noAdjB_cons_of ih ?_
            intro p hp
            rfl
          · intro p hp
            have hp' : p = Piece.tagCl := by
              rw [List.head?_cons] at hp
              exact (Option.some.inj hp).symm
            rw [hp']
            rfl
        · intro p hp
          have hp' : p = Piece.txt f := by
            rw [List.head?_cons] at hp
            exact (Option.some.inj hp).symm
          rw [hp']
          rw [hk]
          rfl
      · intro p hp
        have hp' : p = k := by
          rw [List.head?_cons] at hp
          exact (Option.some.inj hp).symm
        rw [hp', Bool.and_eq_false_iff]
        right
        exact hk


theorem flatten_wrapParts (k : Piece) (f : Str) :
    ∀ (parts : List Str),
      flatten (wrapParts k f parts) = interc (k.flat ++ f ++ tagClose) parts := by
  intro parts
  induction parts with
  | nil => rfl
  | cons q qs ih =>
    cases qs with
    | nil => simp [wrapParts, flatten, interc, Piece.flat]
    | cons q' qs' =>
      show flatten (Piece.txt q :: k :: Piece.txt f :: Piece.tagCl ::
        wrapParts k f (q' :: qs')) = _
      rw [interc_cons2 _ q (by simp)]
      simp only [flatten, Piece.flat, ih]
      simp [List.append_assoc]

theorem texts_wrapParts {k : Piece} (hk : k.isTxt = false) (f : Str) :
    ∀ (parts : List Str), texts (wrapParts k f parts) = interc f parts := by
  intro parts
  induction parts with
  | nil => cases k <;> rfl
  | cons q qs ih =>
    cases qs with
    | nil => simp [wrapParts, texts, interc]
    | cons q' qs' =>
      show texts (Piece.txt q :: k :: Piece.txt f :: Piece.tagCl ::
        wrapParts k f (q' :: qs')) = _
      rw [interc_cons2 _ q (by simp)]
      cases k with
      | txt t => exact absurd hk (by simp [Piece.isTxt])
      | tagOF => simp only [texts, ih]; simp [List.append_assoc]
      | tagOS => simp only [texts, ih]; simp [List.append_assoc]
      | tagCl => simp only [texts, ih]; simp [List.append_assoc]

theorem mem_wrapParts {k : Piece} {f : Str} : ∀ {parts : List Str} {p : Piece},
    p ∈ wrapParts k f parts →
      p = k ∨ p = Piece.tagCl ∨ p = Piece.txt f ∨ ∃ q ∈ parts, p = Piece.txt q := by
  intro parts
  induction parts with
  | nil => intro p hp; simp [wrapParts] at hp
  | cons q qs ih =>
    intro p hp
    cases qs with
    | nil =>
      simp only [wrapParts, List.mem_singleton] at hp
      exact Or.inr (Or.inr (Or.inr ⟨q, by simp, hp⟩))
    | cons q' qs' =>
      have hp' : p ∈ Piece.txt q :: k :: Piece.txt f :: Piece.tagCl ::
          wrapParts k f (q' :: qs') := hp
      rcases List.mem_cons.mp hp' with h | h
      · exact Or.inr (Or.inr (Or.inr ⟨q, by simp, h⟩))
      rcases List.mem_cons.mp h with h | h
      · exact Or.inl h
      rcases List.mem_cons.mp h with h | h
      · exact Or.inr (Or.inr (Or.inl h))
      rcases List.mem_cons.mp h with h | h
      · exact Or.inr (Or.inl h)
      rcases ih h with h | h | h | ⟨q0, hq0, hpq⟩
      · exact Or.inl h
      · exact Or.inr (Or.inl h)
      · exact Or.inr (Or.inr (Or.inl h))
      · exact Or.inr (Or.inr (Or.inr ⟨q0, List.mem_cons_of_mem q hq0, hpq⟩))

/-- A safe fragment never occurs inside any single markup string. -/
theorem safeFrag_not_in_tag {f : Str} (hf : safeFragB f = true) {p : Piece}
    (hp : p.isTxt = false) : occursIn f p.flat = false := by
  unfold safeFragB at hf
  simp only [Bool.and_eq_true, Bool.not_eq_eq_eq_not, Bool.not_true] at hf
  cases p with
  | txt t => exact absurd hp (by simp [Piece.isTxt])
  | tagOF => exact hf.1.1.2
  | tagOS => exact hf.1.2
  | tagCl => exact hf.2

theorem safeFrag_ne_nil {f : Str} (hf : safeFragB f = true) : f ≠ [] := by
  intro hfe
  rw [hfe] at hf
  simp [safeFragB] at hf

theorem safeFrag_noTagChars {f : Str} (hf : safeFragB f = true) :
    noTagCharsB f = true := by
  unfold safeFragB at hf
  simp only [Bool.and_eq_true] at hf
  exact hf.1.1.1.2

/-- No occurrence of a safe fragment straddles the boundary between one
piece and the rest of a well-formed piece list. -/
theorem safeFrag_noStraddle {f : Str} (hf : safeFragB f = true) {p : Piece}
    {r : List Piece} (hc : cleanB (p :: r) = true) (ha : noAdjB (p :: r) = true) :
    NoStraddle p.flat (flatten r) f := by
  intro p1 p2 hsplit h1 h2 hsuf hpre
  by_cases hp : p.isTxt = true
  · -- text piece: the right part would have to begin with a tag character
    cases r with
    | nil =>
      rw [show flatten [] = [] from rfl] at hpre
      exact h2 (List.prefix_nil.mp hpre)
    | cons p' r' =>
      have hp' : p'.isTxt = false := by
        have := noAdjB_cons_head ha p' rfl
        rw [hp] at this
        simpa using this
      have hhead : (flatten (p' :: r')).head? = some '<' := by
        show (p'.flat ++ flatten r').head? = some '<'
        rw [List.head?_append_of_ne_nil p'.flat (tag_flat_ne_nil hp')]
        exact tag_flat_head hp'
      have hmem : '<' ∈ p2 := mem_head_of_pre hpre h2 hhead
      have : '<' ∈ f := hsplit ▸ List.mem_append_right p1 hmem
      exact noTagChars_lt (safeFrag_noTagChars hf) this
  · -- tag piece: the left part would have to end with a tag character
    rw [Bool.not_eq_true] at hp
    have hlast : p.flat.getLast? = some '>' := tag_flat_last hp
    have hmem : '>' ∈ p1 := mem_last_of_suf hsuf h1 hlast
    have : '>' ∈ f := hsplit ▸ List.mem_append_left p2 hmem
    exact noTagChars_gt (safeFrag_noTagChars hf) this

/-- One replacement pass, structurally: replacing the occurrences of a safe
fragment in the flattened string is the flattening of the wrapped pieces. -/
theorem wrap_flatten (k : Piece) {f : Str} (hf : safeFragB f = true) :
    ∀ (r : List Piece), cleanB r = true → noAdjB r = true →
      pyReplace (flatten r) f (k.flat ++ f ++ tagClose) = flatten (wrapRep k f r) := by
  intro r
  induction r with
  | nil => intro _ _; rfl
  | cons p r' ih =>
    intro hc ha
    have hfne : f ≠ [] := safeFrag_ne_nil hf
    have hstep : pyReplace (p.flat ++ flatten r') f (k.flat ++ f ++ tagClose) =
        pyReplace p.flat f (k.flat ++ f ++ tagClose) ++
          pyReplace (flatten r') f (k.flat ++ f ++ tagClose) :=
      pyReplace_append _ hfne (safeFrag_noStraddle hf hc ha)
    show pyReplace (p.flat ++ flatten r') f _ = _
    rw [hstep, ih (cleanB_cons hc) (noAdjB_cons ha)]
    have hrep : wrapRep k f (p :: r') = wrapPiece k f p ++ wrapRep k f r' := by
      unfold wrapRep
      simp
    rw [hrep, flatten_append]
    congr 1
    cases hp : p.isTxt with
    | true =>
      cases p with
      | txt t =>
        show pyReplace t f _ = flatten (wrapParts k f (splitAll f t))
        rw [flatten_wrapParts]
        rfl
      | tagOF => simp [Piece.isTxt] at hp
      | tagOS => simp [Piece.isTxt] at hp
      | tagCl => simp [Piece.isTxt] at hp
    | false =>
      have hocc : occursIn f p.flat = false := safeFrag_not_in_tag hf hp
      have hpp : wrapPiece k f p = [p] := by
        cases p with
        | txt t => simp [Piece.isTxt] at hp
        | tagOF => rfl
        | tagOS => rfl
        | tagCl => rfl
      rw [hpp]
      show pyReplace p.flat f _ = p.flat ++ flatten []
      rw [pyReplace_no_occ _ hocc]
      simp [flatten]

theorem texts_wrapRep {k : Piece} (hk : k.isTxt = false) {f : Str} : ∀ (r : List Piece), texts (wrapRep k f r) = texts r := by
  intro r
  induction r with
  | nil => rfl
  | cons p r' ih =>
    have hrep : wrapRep k f (p :: r') = wrapPiece k f p ++ wrapRep k f r' := by
      unfold wrapRep
      simp
    rw [hrep, texts_append, ih]
    cases p with
    | txt t =>
      show texts (wrapParts k f (splitAll f t)) ++ texts r' = t ++ texts r'
      rw [texts_wrapParts hk, interc_splitAll]
    | tagOF => rfl
    | tagOS => rfl
    | tagCl => rfl

theorem cleanB_wrapRep {k : Piece} (hk : k.isTxt = false) {f : Str}
    (hfc : noTagCharsB f = true) :
    ∀ (r : List Piece), cleanB r = true → cleanB (wrapRep k f r) = true := by
  intro r hc
  unfold cleanB
  rw [List.all_eq_true]
  intro p hp
  unfold wrapRep at hp
  rw [List.mem_flatten] at hp
  obtain ⟨l, hl, hpl⟩ := hp
  rw [List.mem_map] at hl
  obtain ⟨p0, hp0, rfl⟩ := hl
  cases p0 with
  | txt t =>
    have hclean_t : noTagCharsB t = true := cleanB_txt_mem hc hp0
    rcases mem_wrapParts hpl with h | h | h | ⟨q, hq, h⟩
    · rw [h]
      cases k with
      | txt t' => simp [Piece.isTxt] at hk
      | tagOF => rfl
      | tagOS => rfl
      | tagCl => rfl
    · subst h; rfl
    · subst h
      exact hfc
    · subst h
      rw [show ((match Piece.txt q with
          | Piece.txt t => noTagCharsB t
          | _ => true) = true) = (noTagCharsB q = true) from rfl]
      unfold noTagCharsB
      rw [List.all_eq_true]
      intro c hcq
      have hct : c ∈ t := splitAll_sub f t q hq c hcq
      exact List.all_eq_true.mp hclean_t c hct
  | tagOF =>
    simp only [wrapPiece, List.mem_singleton] at hpl
    subst hpl; rfl
  | tagOS =>
    simp only [wrapPiece, List.mem_singleton] at hpl
    subst hpl; rfl
  | tagCl =>
    simp only [wrapPiece, List.mem_singleton] at hpl
    subst hpl; rfl

theorem wrapPiece_ne_nil {k : Piece} {f : Str} (p : Piece) :
    wrapPiece k f p ≠ [] := by
  cases p with
  | txt t => exact wrapParts_ne_nil (splitAll_ne_nil f t)
  | tagOF => simp [wrapPiece]
  | tagOS => simp [wrapPiece]
  | tagCl => simp [wrapPiece]

theorem wrapPiece_head_isTxt {k : Piece} {f : Str} {p q : Piece}
    (h : (wrapPiece k f p).head? = some q) : q.isTxt = p.isTxt := by
  cases p with
  | txt t => rw [wrapParts_head h]; rfl
  | tagOF => simp only [wrapPiece, List.head?_cons, Option.some.injEq] at h; rw [← h]
  | tagOS => simp only [wrapPiece, List.head?_cons, Option.some.injEq] at h; rw [← h]
  | tagCl => simp only [wrapPiece, List.head?_cons, Option.some.injEq] at h; rw [← h]

theorem wrapPiece_last_isTxt {k : Piece} {f : Str} {p q : Piece}
    (h : (wrapPiece k f p).getLast? = some q) : q.isTxt = p.isTxt := by
  cases p with
  | txt t => rw [wrapParts_last h]; rfl
  | tagOF => simp only [wrapPiece, List.getLast?_singleton, Option.some.injEq] at h; rw [← h]
  | tagOS => simp only [wrapPiece, List.getLast?_singleton, Option.some.injEq] at h; rw [← h]
  | tagCl => simp only [wrapPiece, List.getLast?_singleton, Option.some.injEq] at h; rw [← h]

theorem wrapPiece_noAdj {k : Piece} (hk : k.isTxt = false) (f : Str) (p : Piece) :
    noAdjB (wrapPiece k f p) = true := by
  cases p with
  | txt t => exact wrapParts_noAdj hk f (splitAll f t)
  | tagOF => rfl
  | tagOS => rfl
  | tagCl => rfl

theorem noAdjB_wrapRep {k : Piece} (hk : k.isTxt = false) (f : Str) :
    ∀ (r : List Piece), noAdjB r = true → noAdjB (wrapRep k f r) = true := by
  intro r
  induction r with
  | nil => intro _; rfl
  | cons p r' ih =>
    intro ha
    have hrep : wrapRep k f (p :: r') = wrapPiece k f p ++ wrapRep k f r' := by
      unfold wrapRep
      simp
    rw [hrep]
    refine noAdjB_append (wrapPiece_noAdj hk f p) (ih (noAdjB_cons ha)) ?_
    intro a b hla hhb
    cases r' with
    | nil => simp [wrapRep] at hhb
    | cons p' r'' =>
      have hws : wrapRep k f (p' :: r'') = wrapPiece k f p' ++ wrapRep k f r'' := by
        unfold wrapRep
        simp
      rw [hws, List.head?_append_of_ne_nil _ (wrapPiece_ne_nil p')] at hhb
      have hab : (p.isTxt && p'.isTxt) = false := noAdjB_cons_head ha p' rfl
      rw [wrapPiece_last_isTxt hla, wrapPiece_head_isTxt hhb]
      exact hab


/-!
## Stripping the inserted markup
-/

theorem tag_flat_mem_lt {p : Piece} (hp : p.isTxt = false) : '<' ∈ p.flat := by
  cases p with
  | txt t => simp [Piece.isTxt] at hp
  | tagOF => decide
  | tagOS => decide
  | tagCl => decide

theorem tag_flat_gt_not_dropLast {p : Piece} (hp : p.isTxt = false) :
    '>' ∉ p.flat.dropLast := by
  cases p with
  | txt t => simp [Piece.isTxt] at hp
  | tagOF => decide
  | tagOS => decide
  | tagCl => decide

/-- A markup string never occurs inside a clean text run. -/
theorem tag_not_in_clean {t : Str} (ht : noTagCharsB t = true) {κ : Piece}
    (hκ : κ.isTxt = false) : occursIn κ.flat t = false := by
  by_contra hcon
  rw [Bool.not_eq_false] at hcon
  exact noTagChars_lt ht (occursIn_subset hcon '<' (tag_flat_mem_lt hκ))

/-- Deleting the occurrences of one markup string from one piece: the piece
itself if it is that tag, otherwise the piece is untouched. -/
theorem strip_piece {κ : Piece} (hκ : κ.isTxt = false) {p : Piece}
    (hp : cleanB [p] = true) :
    pyReplace p.flat κ.flat [] = flatten (if p = κ then [] else [p]) := by
  by_cases he : p = κ
  · subst he
    rw [if_pos rfl]
    cases p with
    | txt t => simp [Piece.isTxt] at hκ
    | tagOF => decide
    | tagOS => decide
    | tagCl => decide
  · rw [if_neg he]
    have hone : flatten [p] = p.flat := by simp [flatten]
    rw [hone]
    cases p with
    | txt t =>
      have ht : noTagCharsB t = true := by
        unfold cleanB at hp
        simpa using hp
      exact pyReplace_no_occ _ (tag_not_in_clean ht hκ)
    | tagOF =>
      cases κ with
      | txt t => simp [Piece.isTxt] at hκ
      | tagOF => exact absurd rfl he
      | tagOS => decide
      | tagCl => decide
    | tagOS =>
      cases κ with
      | txt t => simp [Piece.isTxt] at hκ
      | tagOF => decide
      | tagOS => exact absurd rfl he
      | tagCl => decide
    | tagCl =>
      cases κ with
      | txt t => simp [Piece.isTxt] at hκ
      | tagOF => decide
      | tagOS => decide
      | tagCl => exact absurd rfl he

/-- No occurrence of a markup string straddles a piece boundary in a clean
piece list. -/
theorem tag_noStraddle {κ : Piece} (hκ : κ.isTxt = false) {p : Piece}
    {r : List Piece} (hc : cleanB (p :: r) = true) :
    NoStraddle p.flat (flatten r) κ.flat := by
  intro p1 p2 hsplit h1 h2 hsuf hpre
  have hp1pre : p1 <+: κ.flat := ⟨p2, hsplit.symm⟩
  by_cases hp : p.isTxt = true
  · -- a non-empty leading-segment of a markup string starts with '<',
    -- which a clean text run does not contain
    cases p with
    | txt t =>
      have hlt : '<' ∈ p1 := mem_head_of_pre hp1pre h1 (tag_flat_head hκ)
      have ht : noTagCharsB t = true := cleanB_txt_mem hc (by simp)
      exact noTagChars_lt ht (hsuf.mem hlt)
    | tagOF => simp [Piece.isTxt] at hp
    | tagOS => simp [Piece.isTxt] at hp
    | tagCl => simp [Piece.isTxt] at hp
  · -- a non-empty suffix of a tag contains '>', and the only '>' of a
    -- markup string is its last character, forcing p1 to be all of it
    rw [Bool.not_eq_true] at hp
    have hgt : '>' ∈ p1 := mem_last_of_suf hsuf h1 (tag_flat_last hp)
    have hall : p1 = κ.flat :=
      pre_eq_of_mem_not_dropLast hp1pre hgt (tag_flat_gt_not_dropLast hκ)
    have hp2 : p2 = [] := by
      have hlen := congrArg List.length hsplit
      rw [hall, List.length_append] at hlen
      have hz : p2.length = 0 := by omega
      exact List.eq_nil_of_length_eq_zero hz
    exact h2 hp2

/-- Deleting the occurrences of one markup string from a flattened clean
piece list removes exactly the pieces of that tag. -/
theorem strip_flatten {κ : Piece} (hκ : κ.isTxt = false) :
    ∀ (r : List Piece), cleanB r = true →
      pyReplace (flatten r) κ.flat [] =
        flatten (r.filter fun p => !(p = κ : Bool)) := by
  intro r
  induction r with
  | nil => intro _; cases κ with
    | txt t => simp [Piece.isTxt] at hκ
    | tagOF => decide
    | tagOS => decide
    | tagCl => decide
  | cons p r' ih =>
    intro hc
    have hκne : κ.flat ≠ [] := tag_flat_ne_nil hκ
    show pyReplace (p.flat ++ flatten r') κ.flat [] = _
    rw [pyReplace_append [] hκne (tag_noStraddle hκ hc), ih (cleanB_cons hc)]
    have hsingle : cleanB [p] = true := by
      unfold cleanB at hc ⊢
      simp only [List.all_cons, Bool.and_eq_true] at hc ⊢
      exact ⟨hc.1, rfl⟩
    rw [strip_piece hκ hsingle]
    by_cases he : p = κ
    · subst he
      rw [if_pos rfl]
      have : (p :: r').filter (fun q => !(q = p : Bool)) =
          r'.filter fun q => !(q = p : Bool) := by
        rw [List.filter_cons]
        simp
      rw [this]
      rfl
    · rw [if_neg he]
      have : (p :: r').filter (fun q => !(q = κ : Bool)) =
          p :: r'.filter fun q => !(q = κ : Bool) := by
        rw [List.filter_cons]
        simp [he]
      rw [this]
      rw [show flatten [p] = p.flat from by simp [flatten]]
      rfl

theorem cleanB_filter {r : List Piece} (h : cleanB r = true) (q : Piece → Bool) :
    cleanB (r.filter q) = true := by
  unfold cleanB at h ⊢
  rw [List.all_eq_true] at h ⊢
  intro p hp
  exact h p (List.mem_of_mem_filter hp)

/-- Removing the three kinds of tag pieces leaves exactly the text runs. -/
theorem flatten_strip_all : ∀ (r : List Piece),
    flatten (((r.filter fun p => !(p = Piece.tagOF : Bool)).filter
        fun p => !(p = Piece.tagOS : Bool)).filter
        fun p => !(p = Piece.tagCl : Bool)) = texts r := by
  intro r
  induction r with
  | nil => rfl
  | cons p r' ih =>
    cases p with
    | txt t =>
      rw [show ((Piece.txt t :: r').filter fun p => !(p = Piece.tagOF : Bool))
          = Piece.txt t :: r'.filter (fun p => !(p = Piece.tagOF : Bool)) from by
        rw [List.filter_cons]; simp]
      rw [show ((Piece.txt t :: r'.filter fun p => !(p = Piece.tagOF : Bool)).filter
            fun p => !(p = Piece.tagOS : Bool))
          = Piece.txt t :: (r'.filter fun p => !(p = Piece.tagOF : Bool)).filter
              (fun p => !(p = Piece.tagOS : Bool)) from by
        rw [List.filter_cons]; simp]
      rw [show ((Piece.txt t :: (r'.filter fun p => !(p = Piece.tagOF : Bool)).filter
            fun p => !(p = Piece.tagOS : Bool)).filter
            fun p => !(p = Piece.tagCl : Bool))
          = Piece.txt t :: ((r'.filter fun p => !(p = Piece.tagOF : Bool)).filter
              fun p => !(p = Piece.tagOS : Bool)).filter
              (fun p => !(p = Piece.tagCl : Bool)) from by
        rw [List.filter_cons]; simp]
      show t ++ _ = t ++ texts r'
      rw [ih]
    | tagOF =>
      rw [show ((Piece.tagOF :: r').filter fun p => !(p = Piece.tagOF : Bool))
          = r'.filter (fun p => !(p = Piece.tagOF : Bool)) from by
        rw [List.filter_cons]; simp]
      exact ih
    | tagOS =>
      rw [show ((Piece.tagOS :: r').filter fun p => !(p = Piece.tagOF : Bool))
          = Piece.tagOS :: r'.filter (fun p => !(p = Piece.tagOF : Bool)) from by
        rw [List.filter_cons]; simp]
      rw [show ((Piece.tagOS :: r'.filter fun p => !(p = Piece.tagOF : Bool)).filter
            fun p => !(p = Piece.tagOS : Bool))
          = (r'.filter fun p => !(p = Piece.tagOF : Bool)).filter
              (fun p => !(p = Piece.tagOS : Bool)) from by
        rw [List.filter_cons]; simp]
      exact ih
    | tagCl =>
      rw [show ((Piece.tagCl :: r').filter fun p => !(p = Piece.tagOF : Bool))
          = Piece.tagCl :: r'.filter (fun p => !(p = Piece.tagOF : Bool)) from by
        rw [List.filter_cons]; simp]
      rw [show ((Piece.tagCl :: r'.filter fun p => !(p = Piece.tagOF : Bool)).filter
            fun p => !(p = Piece.tagOS : Bool))
          = Piece.tagCl :: (r'.filter fun p => !(p = Piece.tagOF : Bool)).filter
              (fun p => !(p = Piece.tagOS : Bool)) from by
        rw [List.filter_cons]; simp]
      rw [show ((Piece.tagCl :: (r'.filter fun p => !(p = Piece.tagOF : Bool)).filter
            fun p => !(p = Piece.tagOS : Bool)).filter
            fun p => !(p = Piece.tagCl : Bool))
          = ((r'.filter fun p => !(p = Piece.tagOF : Bool)).filter
              fun p => !(p = Piece.tagOS : Bool)).filter
              (fun p => !(p = Piece.tagCl : Bool)) from by
        rw [List.filter_cons]; simp]
      exact ih


/-!
## The highlighting pass preserves the structured view
-/

theorem foldl_wrapStep_rep {k : Piece} (hk : k.isTxt = false) :
    ∀ (frags : List Str) (r : List Piece), cleanB r = true → noAdjB r = true →
      (∀ g ∈ frags, ((pyStrip g).isEmpty || safeFragB (pyStrip g)) = true) →
      ∃ r', frags.foldl (wrapStep k) (flatten r) = flatten r'
        ∧ cleanB r' = true ∧ noAdjB r' = true ∧ texts r' = texts r := by
  intro frags
  induction frags with
  | nil => intro r hc ha _; exact ⟨r, rfl, hc, ha, rfl⟩
  | cons g frags ih =>
    intro r hc ha hsafe
    show ∃ r', frags.foldl (wrapStep k) (wrapStep k (flatten r) g) = flatten r'
      ∧ _ ∧ _ ∧ _
    by_cases hguard :
        (!(pyStrip g).isEmpty && occursIn (pyStrip g) (flatten r)) = true
    · have hfs : safeFragB (pyStrip g) = true := by
        have hg := hsafe g (List.mem_cons_self g frags)
        rcases Bool.or_eq_true_iff.mp hg with h | h
        · exfalso
          rw [h] at hguard
          simp at hguard
        · exact h
      have hstep : wrapStep k (flatten r) g = flatten (wrapRep k (pyStrip g) r) := by
        show (if (!(pyStrip g).isEmpty && occursIn (pyStrip g) (flatten r)) = true
          then pyReplace (flatten r) (pyStrip g) (k.flat ++ pyStrip g ++ tagClose)
          else flatten r) = _
        rw [if_pos hguard]
        exact wrap_flatten k hfs r hc ha
      rw [hstep]
      obtain ⟨r', h1, h2, h3, h4⟩ := ih (wrapRep k (pyStrip g) r)
        (cleanB_wrapRep hk (safeFrag_noTagChars hfs) r hc)
        (noAdjB_wrapRep hk (pyStrip g) r ha)
        (fun g' hg' => hsafe g' (List.mem_cons_of_mem g hg'))
      exact ⟨r', h1, h2, h3, h4.trans (texts_wrapRep hk r)⟩
    · have hstep : wrapStep k (flatten r) g = flatten r := by
        show (if (!(pyStrip g).isEmpty && occursIn (pyStrip g) (flatten r)) = true
          then pyReplace (flatten r) (pyStrip g) (k.flat ++ pyStrip g ++ tagClose)
          else flatten r) = _
        rw [if_neg (by rw [Bool.not_eq_true] at hguard; simp [hguard])]
      rw [hstep]
      exact ih r hc ha (fun g' hg' => hsafe g' (List.mem_cons_of_mem g hg'))

theorem preprocess_highlighted_rep (r : RawReview)
    (hO : noTagCharsB (normalize r.originalReview) = true)
    (hF : safeFieldB (normalize r.foodQuality) = true)
    (hS : safeFieldB (normalize r.staffService) = true) :
    ∃ rp, (preprocess_review r).highlighted = flatten rp
      ∧ cleanB rp = true ∧ texts rp = normalize r.originalReview := by
  have hinit : normalize r.originalReview =
      flatten [Piece.txt (normalize r.originalReview)] := by
    simp [flatten, Piece.flat]
  have hc0 : cleanB [Piece.txt (normalize r.originalReview)] = true := by
    unfold cleanB
    simpa using hO
  have ha0 : noAdjB [Piece.txt (normalize r.originalReview)] = true := rfl
  obtain ⟨r1, h1, hc1, ha1, ht1⟩ := foldl_wrapStep_rep (k := Piece.tagOF) rfl
    (splitOnPunct (normalize r.foodQuality))
    [Piece.txt (normalize r.originalReview)] hc0 ha0
    (fun g hg => List.all_eq_true.mp hF g hg)
  obtain ⟨r2, h2, hc2, ha2, ht2⟩ := foldl_wrapStep_rep (k := Piece.tagOS) rfl
    (splitOnPunct (normalize r.staffService)) r1 hc1 ha1
    (fun g hg => List.all_eq_true.mp hS g hg)
  refine ⟨r2, ?_, hc2, ?_⟩
  · show wrapField Piece.tagOS (normalize r.staffService)
      (wrapField Piece.tagOF (normalize r.foodQuality)
        (normalize r.originalReview)) = flatten r2
    unfold wrapField
    rw [hinit, h1, h2]
  · rw [ht2, ht1]
    simp [texts]

/-- C1, amended: for every record whose normalized review text contains no
markup delimiter character and whose Analysis fragments are non-empty-safe
(no delimiter characters and not occurring inside the three markup strings),
removing all inserted markup spans from the highlighted text reconstructs
the whitespace-normalized original review text. -/
theorem c1_strip_reconstruction (r : RawReview)
    (hO : noTagCharsB (normalize r.originalReview) = true)
    (hF : safeFieldB (normalize r.foodQuality) = true)
    (hS : safeFieldB (normalize r.staffService) = true) :
    stripMarkup (preprocess_review r).highlighted = normalize r.originalReview := by
  obtain ⟨rp, hflat, hclean, htexts⟩ := preprocess_highlighted_rep r hO hF hS
  unfold stripMarkup
  rw [hflat,
    show tagOpenFood = Piece.tagOF.flat from rfl,
    show tagOpenStaff = Piece.tagOS.flat from rfl,
    show tagClose = Piece.tagCl.flat from rfl,
    strip_flatten (κ := Piece.tagOF) rfl rp hclean,
    strip_flatten (κ := Piece.tagOS) rfl _ (cleanB_filter hclean _),
    strip_flatten (κ := Piece.tagCl) rfl _
      (cleanB_filter (cleanB_filter hclean _) _),
    flatten_strip_all]
  exact htexts

/-- C1 as stated is false: in `rxC1` the staff fragment `"food"` matches
inside the markup inserted by the food pass, and stripping the markup does
not reconstruct the normalized original text. -/
theorem c1_counterexample :
    stripMarkup (preprocess_review rxC1).highlighted
      ≠ normalize rxC1.originalReview := by decide

/-- Witness for the amended C1 at a concrete well-behaved record. -/
theorem c1_witness :
    stripMarkup (preprocess_review rwC1).highlighted
      = normalize rwC1.originalReview :=
  c1_strip_reconstruction rwC1 (by decide) (by decide) (by decide)


/-!
## C2: the label truth table
-/

/-- C2: the derived Label is a pure function of which Analysis fields are
non-empty after whitespace normalization, with the fixed truth table
both/food/staff/none. -/
theorem c2_label_table (r : RawReview) :
    (preprocess_review r).label =
      labelTableSpec (!(normalize r.foodQuality).isEmpty)
        (!(normalize r.staffService).isEmpty) := by
  show (if !(normalize r.foodQuality).isEmpty
          && !(normalize r.staffService).isEmpty then str "both"
        else if !(normalize r.foodQuality).isEmpty then str "food"
        else if !(normalize r.staffService).isEmpty then str "staff"
        else str "none") = _
  cases h1 : (normalize r.foodQuality).isEmpty <;>
    cases h2 : (normalize r.staffService).isEmpty <;>
      simp [labelTableSpec]

/-!
## C3: the search filter
-/

/-- C3 as stated is false: the query `"food"` also returns records that are
not labeled food/both but whose highlighted text contains "food" as a
substring, because the `elif` chain falls through to the substring branch. -/
theorem c3_counterexample :
    index_filter (str "food") (preprocess_reviews [rxC3])
      ≠ (preprocess_reviews [rxC3]).filter
          (fun e => (e.label = str "food" || e.label = str "both")) := by decide

/-- C3, amended: the query "food" returns exactly the records labeled food
or both together with the records whose lowercased highlighted text contains
"food"; the keyword queries "staff"/"service"/"services" behave likewise
with the staff/both labels; every other non-empty (stripped, lowercased)
query filters by case-insensitive substring only; a query that strips to
empty returns the list unfiltered. -/
theorem c3_search_filter (rs : List Enriched) :
    (index_filter (str "food") rs
      = rs.filter fun e => (e.label = str "food" || e.label = str "both")
          || occursIn (str "food") (lowerStr e.highlighted))
    ∧ (index_filter (str "service") rs
      = rs.filter fun e => (e.label = str "staff" || e.label = str "both")
          || occursIn (str "service") (lowerStr e.highlighted))
    ∧ (index_filter (str "staff") rs
      = rs.filter fun e => (e.label = str "staff" || e.label = str "both")
          || occursIn (str "staff") (lowerStr e.highlighted))
    ∧ (index_filter (str "services") rs
      = rs.filter fun e => (e.label = str "staff" || e.label = str "both")
          || occursIn (str "services") (lowerStr e.highlighted))
    ∧ (∀ q : Str, q ≠ [] → pyStrip q = q → lowerStr q = q →
        q ≠ str "food" → q ≠ str "staff" → q ≠ str "service" →
        q ≠ str "services" →
        index_filter q rs = rs.filter fun e =>
          occursIn q (lowerStr e.highlighted))
    ∧ (∀ q : Str, pyStrip q = [] → index_filter q rs = rs) := by
  refine ⟨?_, ?_, ?_, ?_, ?_, ?_⟩
  · show (if (lowerStr (pyStrip (str "food"))).isEmpty then rs
      else rs.filter (matchesQuery (lowerStr (pyStrip (str "food"))))) = _
    rw [show lowerStr (pyStrip (str "food")) = str "food" from rfl,
      if_neg (by decide)]
    refine List.filter_congr ?_
    intro e _
    show matchesQuery (str "food") e = _
    unfold matchesQuery
    rw [show (decide (str "food" = str "food")) = true from by decide,
      show (decide (str "food" = str "staff")) = false from by decide,
      show (decide (str "food" = str "service")) = false from by decide,
      show (decide (str "food" = str "services")) = false from by decide]
    cases hl1 : decide (e.label = str "food") <;>
      cases hl2 : decide (e.label = str "both") <;>
        cases hl3 : decide (e.label = str "staff") <;>
          cases ho : occursIn (str "food") (lowerStr e.highlighted) <;> simp_all
  · show (if (lowerStr (pyStrip (str "service"))).isEmpty then rs
      else rs.filter (matchesQuery (lowerStr (pyStrip (str "service"))))) = _
    rw [show lowerStr (pyStrip (str "service")) = str "service" from rfl,
      if_neg (by decide)]
    refine List.filter_congr ?_
    intro e _
    show matchesQuery (str "service") e = _
    unfold matchesQuery
    rw [show (decide (str "service" = str "food")) = false from by decide,
      show (decide (str "service" = str "staff")) = false from by decide,
      show (decide (str "service" = str "service")) = true from by decide]
    cases hl1 : decide (e.label = str "staff") <;>
      cases hl2 : decide (e.label = str "both") <;>
        cases ho : occursIn (str "service") (lowerStr e.highlighted) <;> simp_all
  · show (if (lowerStr (pyStrip (str "staff"))).isEmpty then rs
      else rs.filter (matchesQuery (lowerStr (pyStrip (str "staff"))))) = _
    rw [show lowerStr (pyStrip (str "staff")) = str "staff" from rfl,
      if_neg (by decide)]
    refine List.filter_congr ?_
    intro e _
    show matchesQuery (str "staff") e = _
    unfold matchesQuery
    rw [show (decide (str "staff" = str "food")) = false from by decide,
      show (decide (str "staff" = str "staff")) = true from by decide]
    cases hl1 : decide (e.label = str "staff") <;>
      cases hl2 : decide (e.label = str "both") <;>
        cases ho : occursIn (str "staff") (lowerStr e.highlighted) <;> simp_all
  · show (if (lowerStr (pyStrip (str "services"))).isEmpty then rs
      else rs.filter (matchesQuery (lowerStr (pyStrip (str "services"))))) = _
    rw [show lowerStr (pyStrip (str "services")) = str "services" from rfl,
      if_neg (by decide)]
    refine List.filter_congr ?_
    intro e _
    show matchesQuery (str "services") e = _
    unfold matchesQuery
    rw [show (decide (str "services" = str "food")) = false from by decide,
      show (decide (str "services" = str "staff")) = false from by decide,
      show (decide (str "services" = str "service")) = false from by decide,
      show (decide (str "services" = str "services")) = true from by decide]
    cases hl1 : decide (e.label = str "staff") <;>
      cases hl2 : decide (e.label = str "both") <;>
        cases ho : occursIn (str "services") (lowerStr e.highlighted) <;> simp_all
  · intro q hne hstr hlow hq1 hq2 hq3 hq4
    show (if (lowerStr (pyStrip q)).isEmpty then rs
      else rs.filter (matchesQuery (lowerStr (pyStrip q)))) = _
    rw [hstr, hlow, if_neg (by
      intro hcon
      exact hne (by simpa [List.isEmpty_iff] using hcon))]
    refine List.filter_congr ?_
    intro e _
    show matchesQuery q e = _
    unfold matchesQuery
    rw [show (decide (q = str "food")) = false from by simp [hq1],
      show (decide (q = str "staff")) = false from by simp [hq2],
      show (decide (q = str "service")) = false from by simp [hq3],
      show (decide (q = str "services")) = false from by simp [hq4]]
    simp
  · intro q hq
    show (if (lowerStr (pyStrip q)).isEmpty then rs
      else rs.filter (matchesQuery (lowerStr (pyStrip q)))) = rs
    rw [hq]
    rfl

/-- Witness for the amended C3: a plain query filters by substring only. -/
theorem c3_witness :
    index_filter (str "xyz") (preprocess_reviews [rxC3])
      = (preprocess_reviews [rxC3]).filter
          (fun e => occursIn (str "xyz") (lowerStr e.highlighted)) :=
  (c3_search_filter (preprocess_reviews [rxC3])).2.2.2.2.1 (str "xyz")
    (by decide) (by decide) (by decide) (by decide) (by decide) (by decide)
    (by decide)


/-!
## C4 and C5: pagination
-/

/-- C4 as stated is false in its prev_page clause: at requested page 0 the
previous page is reported as null although the page is not 1. -/
theorem c4_counterexample :
    ¬ ((index_paginate (List.range 25) 0).prevPage = none ↔ (0 : Int) = 1) := by
  decide

/-- C4, amended: total_pages is the ceiling of N/10 (characterized as the
least k with N ≤ 10k); for N = 25, page 3 returns exactly the records at
positions 21-25 with next_page null; and prev_page is null exactly when the
requested page is at most 1 (not only at page 1). -/
theorem c4_pagination {α : Type} (l : List α) (page : Int) :
    (l.length ≤ 10 * (index_paginate l page).totalPages
      ∧ ∀ k, l.length ≤ 10 * k → (index_paginate l page).totalPages ≤ k)
    ∧ (l.length = 25 →
        (index_paginate l 3).records = l.drop 20
        ∧ (index_paginate l 3).nextPage = none)
    ∧ ((index_paginate l page).prevPage = none ↔ page ≤ 1) := by
  refine ⟨⟨?_, ?_⟩, ?_, ?_⟩
  · show l.length ≤ 10 * ((l.length + 9) / 10)
    omega
  · intro k hk
    show (l.length + 9) / 10 ≤ k
    omega
  · intro h25
    constructor
    · show pySlice l ((3 - 1) * 10) ((3 - 1) * 10 + 10) = l.drop 20
      unfold pySlice pySliceResolve
      rw [h25]
      norm_num
      refine List.take_of_length_le ?_
      rw [List.length_drop, h25]
    · show (if (3 : Int) < (((l.length + 9) / 10 : Nat) : Int)
        then some (3 + 1) else none) = none
      rw [if_neg (by rw [h25]; norm_num)]
  · show (if page > 1 then some (page - 1) else none) = none ↔ page ≤ 1
    by_cases h : page > 1
    · rw [if_pos h]
      constructor
      · intro hcon; exact absurd hcon (by simp)
      · intro hcon; omega
    · rw [if_neg h]
      constructor
      · intro _; omega
      · intro _; rfl

/-- Witness for the amended C4 at the concrete 25-record list. -/
theorem c4_witness :
    (index_paginate (List.range 25) 3).records = (List.range 25).drop 20
    ∧ (index_paginate (List.range 25) 3).nextPage = none
    ∧ (index_paginate (List.range 25) 1).prevPage = none := by
  obtain ⟨-, h2, h3⟩ := c4_pagination (List.range 25) 1
  obtain ⟨ha, hb⟩ := h2 (by decide)
  exact ⟨ha, hb, h3.mpr (by norm_num)⟩

/-- C5 as stated is false: a negative page is not an empty slice; Python's
negative slice indices wrap around, and page -1 on 25 records returns the
ten records at positions 6-15. -/
theorem c5_counterexample :
    (index_paginate (List.range 25) (-1)).records ≠ [] := by decide

/-- C5, amended: a requested page above total_pages, and page 0, yield an
empty slice without error; pages below 0 are interpreted with Python's
negative slice indexing and can yield a non-empty slice from the middle of
the sequence. -/
theorem c5_out_of_range {α : Type} (l : List α) (page : Int) :
    (((index_paginate l page).totalPages : Int) < page →
      (index_paginate l page).records = [])
    ∧ (page = 0 → (index_paginate l page).records = []) := by
  constructor
  · intro hp
    have htp : (((l.length + 9) / 10 : Nat) : Int) < page := hp
    show pySlice l ((page - 1) * 10) ((page - 1) * 10 + 10) = []
    unfold pySlice pySliceResolve
    have hpos : ¬ ((page - 1) * 10 < (0 : Int)) := by
      rw [not_lt]
      have : (1 : Int) ≤ page := by omega
      nlinarith
    rw [if_neg hpos]
    have hbig : l.length ≤ ((page - 1) * 10).toNat := by
      have h10 : (l.length : Int) ≤ ((l.length + 9) / 10 : Nat) * 10 := by
        have : l.length ≤ ((l.length + 9) / 10) * 10 := by omega
        exact_mod_cast this
      have : (l.length : Int) ≤ (page - 1) * 10 := by nlinarith
      omega
    rw [min_eq_right hbig]
    simp [List.drop_length]
  · intro hp
    subst hp
    show pySlice l ((0 - 1) * 10) ((0 - 1) * 10 + 10) = []
    unfold pySlice pySliceResolve
    norm_num

/-- Witness for the amended C5: page 4 of 25 records and page 0 are empty. -/
theorem c5_witness :
    (index_paginate (List.range 25) 4).records = []
    ∧ (index_paginate (List.range 25) 0).records = [] :=
  ⟨(c5_out_of_range (List.range 25) 4).1 (by decide),
   (c5_out_of_range (List.range 25) 0).2 rfl⟩


/-!
## C6: date parsing
-/

/-- C6 as stated is false: the literal string "3 days ago" raises — the
code takes `int(s.split()[1])` and the second whitespace token of
"3 days ago" is "days"; and a string containing "Dined on" that does not
match the absolute format (e.g. "Dined on yesterday") raises from
`strptime` instead of becoming null. -/
theorem c6_counterexample :
    parse_date (str "3 days ago") ≠ .ok (some (.daysBefore 3))
    ∧ parse_date (str "Dined on yesterday") ≠ .ok none := by
  constructor
  · intro h
    rw [show parse_date (str "3 days ago") = .error () from rfl] at h
    exact Except.noConfusion h
  · intro h
    rw [show parse_date (str "Dined on yesterday") = .error () from rfl] at h
    exact Except.noConfusion h

/-- C6, amended: "Dined on January 5, 2024" parses to 2024-01-05; a string
whose second whitespace token is the digit sequence of N and which contains
"days ago" but not "Dined on" (such as "Dined 3 days ago") parses to the
current date minus N days; the literal "3 days ago" instead raises, as does
a "Dined on" string that does not match the absolute format; a string
containing neither "Dined on" nor "days ago" parses to null; and null-dated
rows are excluded from every monthly mean. -/
theorem c6_date_parsing :
    parse_date (str "Dined on January 5, 2024") = .ok (some (.ymd 2024 1 5))
    ∧ parse_date (str "Dined 3 days ago") = .ok (some (.daysBefore 3))
    ∧ parse_date (str "3 days ago") = .error ()
    ∧ parse_date (str "Dined on yesterday") = .error ()
    ∧ (∀ s, occursIn (str "Dined on") s = false →
        occursIn (str "days ago") s = false → parse_date s = .ok none)
    ∧ (∀ rows (m : Month), monthlyMean rows m =
        monthlyMean (rows.filter fun r => r.1.isSome) m) := by
  refine ⟨rfl, rfl, rfl, rfl, ?_, ?_⟩
  · intro s h1 h2
    unfold parse_date
    rw [h1, h2]
    rfl
  · intro rows m
    unfold monthlyMean
    have hfil : (rows.filter fun r => r.1.isSome).filter
        (fun r => decide (r.1 = some m))
        = rows.filter fun r => decide (r.1 = some m) := by
      rw [List.filter_filter]
      refine List.filter_congr ?_
      intro r _
      cases hr : r.1 with
      | none => simp [hr]
      | some m' => simp [hr]
    rw [hfil]

/-- Witness for the amended C6: an unrecognized date string parses to null. -/
theorem c6_witness : parse_date (str "hello") = .ok none :=
  c6_date_parsing.2.2.2.2.1 (str "hello") (by decide) (by decide)

/-!
## C7: competitor series length alignment
-/

/-- C7 as stated is false on both sides: a longer competitor series is not
truncated to the primary length (3 ratings against 1 primary row stay 3),
and a shorter one is not padded to the primary length (1 rating against 3
primary rows stays 1), because the padded/truncated list is cut back to
`len(competitor_df)` when the aligned frame is built. -/
theorem c7_counterexample :
    align_competitor 1 [3, 4, 5] ≠ [some 3]
    ∧ align_competitor 3 [5] ≠ [some 5, none, none] := by
  constructor <;> decide

/-- C7, amended: the pad/truncate step is a net no-op — the competitor
rating series enters the monthly-mean computation at its original length,
with every rating kept and no padding visible. -/
theorem c7_alignment (mainLen : Nat) (ratings : List Int) :
    align_competitor mainLen ratings = ratings.map some := by
  unfold align_competitor
  by_cases h : ratings.length < max mainLen ratings.length
  · simp only [if_pos h]
    have hlen : (ratings.map some).length = ratings.length := by
      rw [List.length_map]
    rw [show ratings.length = (ratings.map some).length from hlen.symm,
      List.take_left]
  · simp only [if_neg h]
    have hmax : max mainLen ratings.length = ratings.length := by omega
    rw [hmax]
    rw [show ratings.length = (ratings.map some).length from
      (List.length_map ratings some).symm, List.take_length, List.take_length]

/-!
## C8: every occurrence is wrapped
-/

/-- C8 as stated is false: with the food fragment "good pizza" occurring
twice in the review, both occurrences are wrapped (Python `str.replace`
replaces every occurrence), so the highlighted text differs from the
first-occurrence-only wrapping the claim describes. -/
theorem c8_counterexample :
    (preprocess_review rxC8).highlighted
        ≠ str "<span class=\"food\">good pizza</span>! bad day. good pizza"
    ∧ (preprocess_review rxC8).highlighted
        = str ("<span class=\"food\">good pizza</span>! bad day. " ++
            "<span class=\"food\">good pizza</span>") := by
  constructor <;> decide

theorem wrapStep_nil (k : Piece) (acc : Str) : wrapStep k acc [] = acc := rfl

/-- C8, amended: a fragment is wrapped at every textual occurrence, not only
the first: when the food field consists of the single fragment `f` and the
staff field is empty, the highlighted text is the original text split at
every occurrence of `f` and rejoined with the wrapped fragment. -/
theorem c8_wrap_every_occurrence (r : RawReview) (f : Str)
    (h1 : splitOnPunct (normalize r.foodQuality) = [f])
    (h2 : pyStrip f = f) (h3 : f ≠ [])
    (h4 : normalize r.staffService = [])
    (h5 : occursIn f (normalize r.originalReview) = true) :
    (preprocess_review r).highlighted
      = interc (tagOpenFood ++ f ++ tagClose)
          (splitAll f (normalize r.originalReview)) := by
  show wrapField Piece.tagOS (normalize r.staffService)
    (wrapField Piece.tagOF (normalize r.foodQuality)
      (normalize r.originalReview)) = _
  rw [h4]
  have hfood : wrapField Piece.tagOF (normalize r.foodQuality)
      (normalize r.originalReview)
      = interc (tagOpenFood ++ f ++ tagClose)
          (splitAll f (normalize r.originalReview)) := by
    unfold wrapField
    rw [h1]
    show wrapStep Piece.tagOF (normalize r.originalReview) f = _
    unfold wrapStep
    rw [h2]
    rw [if_pos (by
      rw [h5, show f.isEmpty = false from by
        cases f with
        | nil => exact absurd rfl h3
        | cons a as => rfl]
      rfl)]
    rfl
  rw [hfood]
  show List.foldl (wrapStep Piece.tagOS) _ (splitOnPunct []) = _
  show wrapStep Piece.tagOS _ [] = _
  exact wrapStep_nil _ _

/-- Witness for the amended C8 at the double-occurrence record. -/
theorem c8_witness :
    (preprocess_review rxC8).highlighted
      = interc (tagOpenFood ++ str "good pizza" ++ tagClose)
          (splitAll (str "good pizza") (normalize rxC8.originalReview)) :=
  c8_wrap_every_occurrence rxC8 (str "good pizza") (by decide) (by decide)
    (by decide) (by decide) (by decide)


/-!
## C9: per-row failure handling in the categorizer
-/

theorem categorizeGo_spec (jsonLoads : Str → Option (List (Str × Str)))
    (outcomes : Nat → ApiOutcome) :
    ∀ (rows : List CsvRow) (i0 : Nat),
      (categorizeGo jsonLoads outcomes i0 rows).length = rows.length
      ∧ ∀ j row, rows.get? j = some row →
          (categorizeGo jsonLoads outcomes i0 rows).get? j = some
            { reviewerName := row.reviewerName
              rating := row.rating
              date := row.date
              originalReview := row.reviewText
              analysis := categorize_single_review jsonLoads (outcomes (i0 + j)) } := by
  intro rows
  induction rows with
  | nil =>
    intro i0
    refine ⟨rfl, ?_⟩
    intro j row hrow
    simp at hrow
  | cons row0 rest ih =>
    intro i0
    constructor
    · show (_ :: categorizeGo jsonLoads outcomes (i0 + 1) rest).length = _
      simp only [List.length_cons]
      rw [(ih (i0 + 1)).1]
    · intro j row hrow
      cases j with
      | zero =>
        simp only [List.get?_cons_zero, Option.some.injEq] at hrow
        subst hrow
        show some _ = some _
        rw [Nat.add_zero]
      | succ j =>
        simp only [List.get?_cons_succ] at hrow
        show (categorizeGo jsonLoads outcomes (i0 + 1) rest).get? j = _
        rw [(ih (i0 + 1)).2 j row hrow]
        have : i0 + 1 + j = i0 + (j + 1) := by omega
        rw [this]

/-- C9: the categorizer emits exactly one record per input row, in input
order, carrying that row's fields; and whenever categorizing a row fails
(API exception, falsy message, or unparseable response text), that row's
Analysis is the default mapping with both fields empty. -/
theorem c9_per_row_default (jsonLoads : Str → Option (List (Str × Str)))
    (outcomes : Nat → ApiOutcome) (rows : List CsvRow) :
    (categorize_reviews_from_csv jsonLoads outcomes rows).length = rows.length
    ∧ ∀ j row, rows.get? j = some row →
        ∃ rec, (categorize_reviews_from_csv jsonLoads outcomes rows).get? j
            = some rec
          ∧ rec.reviewerName = row.reviewerName
          ∧ rec.rating = row.rating
          ∧ rec.date = row.date
          ∧ rec.originalReview = row.reviewText
          ∧ ((outcomes j = .failure ∨ outcomes j = .falsyMessage
              ∨ ∃ t, outcomes j = .response t ∧ jsonLoads (pyStrip t) = none) →
            rec.analysis = defaultAnalysis) := by
  obtain ⟨hlen, hget⟩ := categorizeGo_spec jsonLoads outcomes rows 0
  refine ⟨hlen, ?_⟩
  intro j row hrow
  have h := hget j row hrow
  rw [Nat.zero_add] at h
  refine ⟨_, h, rfl, rfl, rfl, rfl, ?_⟩
  intro hfail
  show categorize_single_review jsonLoads (outcomes j) = defaultAnalysis
  rcases hfail with hf | hf | ⟨t, hf, hparse⟩
  · rw [hf]; rfl
  · rw [hf]; rfl
  · rw [hf]
    show (match jsonLoads (pyStrip t) with
      | some a => a
      | none => defaultAnalysis) = defaultAnalysis
    rw [hparse]

/-- Witness for C9 at a concrete failing row. -/
theorem c9_witness :
    ∃ rec, (categorize_reviews_from_csv (fun _ => none) (fun _ => .failure)
        [⟨str "a", str "5 stars", str "d", str "texty"⟩]).get? 0 = some rec
      ∧ rec.originalReview = str "texty"
      ∧ rec.analysis = defaultAnalysis := by
  obtain ⟨-, h⟩ := c9_per_row_default (fun _ => none) (fun _ => .failure)
    [⟨str "a", str "5 stars", str "d", str "texty"⟩]
  obtain ⟨rec, h1, -, -, -, h5, h6⟩ := h 0 _ rfl
  exact ⟨rec, h1, h5, h6 (Or.inl rfl)⟩

/-!
## C10: the page query parameter
-/

/-- C10: a missing page parameter defaults to 1, while a present parameter
that is not an integer literal (such as "abc" or "1.5") raises an uncaught
exception from the integer conversion. -/
theorem c10_page_param :
    index_page_param none = .ok 1
    ∧ index_page_param (some (str "abc")) = .error ()
    ∧ index_page_param (some (str "1.5")) = .error ()
    ∧ ∀ s, pyInt s = none → index_page_param (some s) = .error () := by
  refine ⟨rfl, rfl, rfl, ?_⟩
  intro s h
  show (match pyInt s with
    | some n => Except.ok n
    | none => Except.error ()) = Except.error ()
  rw [h]

/-- Witness for C10 at the concrete malformed parameter "abc". -/
theorem c10_witness : index_page_param (some (str "abc")) = .error () :=
  c10_page_param.2.2.2 (str "abc") (by decide)

end RSA
